import Mathlib

/-!
# Verification of `sync.py` (EErikas/dir-sync)

A shallow embedding of the directory-synchronization script `sync.py`.

Modelling conventions:

* A `Path` is the list of path segments of a normalized relative path
  (relative to the source root on the source side and to the destination
  root on the destination side).  `os.path.normpath`/`os.path.join` on
  well-formed names make a normalized path equivalent to its segment list,
  so `normpath` is the identity of this model and the string-membership
  tests of the script (`f not in synced_dirs`) become list membership of
  segment lists.  The root itself is the empty list `[]`.
* A directory tree is a flat record `FS` of file entries (path together
  with content, the content standing for the byte string) and of the set
  of directories strictly below the root; the root directory is implicit
  and always present.  `FS.WF` states the obvious facts true of a real
  directory tree (no duplicate paths, a path is not both a file and a
  directory, every entry's parent directory exists).
* `sha256` of the script's `get_checksum` is collision-free on the
  contents that occur, so the digest is modelled as the content itself;
  `is_updated` compares the two digests.
* `os.walk` enumerates directories parents-first in an unspecified
  per-directory listing order; the model determinizes the order by
  sorting directories lexicographically (Python's list comparison is
  exactly the lexicographic order on segment lists, which is the
  `LinearOrder (List String)` instance).  `os.walk` of a missing or
  unreadable root yields nothing.
* Python exceptions are `Except` errors that carry the state reached so
  far, since mutations done before the raise persist.  `copy2` and
  `os.remove` can fail on the real filesystem (permissions, races); the
  models take a `fail` predicate saying on which paths they raise.
-/

namespace DirSync

/-- A normalized relative path, as its list of segments; `[]` is the root. -/
abbrev Path := List String

/-- The messages passed to `view_message`, in structured form.
`removeError` is the only call of `view_message` with `log_level='error'`. -/
inductive Msg where
  | destCreated (p : Path)
  | fileCreated (p : Path)
  | fileUpdated (p : Path)
  | fileRemoved (p : Path)
  | emptyDirRemoved (p : Path)
  | removeError (p : Path)
  deriving DecidableEq, Repr

/-- The `log_level` of a message: `true` is `'error'`, `false` is `'debug'`. -/
def Msg.isError : Msg → Bool
  | .removeError _ => true
  | _ => false

/-- A message recording a call of `copy2` (those are emitted immediately
before each `copy2` call in `sync`, one per call). -/
def Msg.isCopyOf (p : Path) : Msg → Bool
  | .fileCreated q => decide (q = p)
  | .fileUpdated q => decide (q = p)
  | _ => false

/-- A directory tree: the files strictly below the (implicit) root, each
with its content, and the directories strictly below the root. -/
structure FS where
  files : List (Path × Nat)
  dirs : List Path
  deriving DecidableEq, Repr

/-- The empty tree: a root directory with no entries. -/
def FS.empty : FS := ⟨[], []⟩

/-- The content stored at path `p`, when `p` is a regular file. -/
def FS.getFile (fs : FS) (p : Path) : Option Nat :=
  (fs.files.find? (fun e => decide (e.1 = p))).map Prod.snd

/-- `p` is a regular file of the tree. -/
def FS.isFile (fs : FS) (p : Path) : Bool :=
  fs.files.any (fun e => decide (e.1 = p))

/-- `p` is a directory of the tree (the root always is). -/
def FS.isDir (fs : FS) (p : Path) : Bool :=
  decide (p = []) || fs.dirs.contains p

/-- `os.path.exists`: `p` is a file or a directory of the tree. -/
def FS.pathExists (fs : FS) (p : Path) : Bool :=
  fs.isFile p || fs.isDir p

/-- `os.mkdir`: creates the single directory `p`; fails (`none`) when the
parent is missing or not a directory, or `p` already exists. -/
def FS.mkdir (fs : FS) (p : Path) : Option FS :=
  if fs.isDir p.dropLast && !fs.pathExists p then
    some ⟨fs.files, fs.dirs ++ [p]⟩
  else none

/-- `shutil.copy2 src p` with source content `c`: overwrites the regular
file `p`, or creates it when the parent is a directory and `p` is not a
directory; fails (`none`) otherwise (`NotADirectoryError` and friends). -/
def FS.writeFile (fs : FS) (p : Path) (c : Nat) : Option FS :=
  if fs.isFile p then
    some ⟨fs.files.map (fun e => if e.1 = p then (p, c) else e), fs.dirs⟩
  else if fs.isDir p.dropLast && !fs.isDir p then
    some ⟨fs.files ++ [(p, c)], fs.dirs⟩
  else none

/-- `os.remove p`: drop the file entry at `p`. -/
def FS.removeFile (fs : FS) (p : Path) : FS :=
  ⟨fs.files.filter (fun e => decide (e.1 ≠ p)), fs.dirs⟩

/-- `shutil.rmtree p`: drop everything at or below `p`. -/
def FS.rmtree (fs : FS) (p : Path) : FS :=
  ⟨fs.files.filter (fun e => !p.isPrefixOf e.1),
   fs.dirs.filter (fun q => !p.isPrefixOf q)⟩

/-- `len(os.listdir d) == 0`: the directory `d` has no immediate child. -/
def FS.listDirEmpty (fs : FS) (d : Path) : Bool :=
  !(fs.files.any (fun e => decide (e.1.dropLast = d ∧ e.1 ≠ []))) &&
  !(fs.dirs.any (fun q => decide (q.dropLast = d ∧ q ≠ [])))

/-- Well-formedness of a tree, as on a real filesystem: unique paths, no
path is both a file and a directory, no entry sits at the root path
itself, and every entry's parent directory is present. -/
structure FS.WF (fs : FS) : Prop where
  nodupFiles : (fs.files.map Prod.fst).Nodup
  nodupDirs : fs.dirs.Nodup
  disjoint : ∀ p ∈ fs.files.map Prod.fst, p ∉ fs.dirs
  filesNonRoot : ∀ p ∈ fs.files.map Prod.fst, p ≠ []
  dirsNonRoot : ∀ d ∈ fs.dirs, d ≠ []
  filesParent : ∀ p ∈ fs.files.map Prod.fst, p.dropLast = [] ∨ p.dropLast ∈ fs.dirs
  dirsParent : ∀ d ∈ fs.dirs, d.dropLast = [] ∨ d.dropLast ∈ fs.dirs

/-- `get_checksum`: sha256 is injective on the occurring contents, so the
digest is the content itself. -/
def get_checksum (content : Nat) : Nat := content

/-- `is_updated`: the two files' checksums differ. -/
def is_updated (srcContent destContent : Nat) : Bool :=
  decide (get_checksum srcContent ≠ get_checksum destContent)

/-! ## Python's ordering of paths

`remove_empty_folders` sorts by `x[0].split(os.path.sep)`, i.e. by the
list of path segments under Python's list comparison: lexicographic,
elementwise by string comparison (code points), a strict prefix ordered
first.  The same order determinizes the walk. -/

/-- Python string `<` on the characters (code points). -/
def ltData : List Char → List Char → Bool
  | [], [] => false
  | [], _ :: _ => true
  | _ :: _, [] => false
  | a :: as, b :: bs => if a = b then ltData as bs else decide (a.toNat < b.toNat)

/-- Python `<` on two path segments. -/
def segLt (a b : String) : Bool := ltData a.data b.data

/-- Python `<=` on two segment lists (list comparison). -/
def pathLe : Path → Path → Bool
  | [], _ => true
  | _ :: _, [] => false
  | a :: as, b :: bs => if a = b then pathLe as bs else segLt a b

/-! ## The sync engine -/

/-- The running state of one `sync` pass over an existing destination
root: the destination tree, the messages printed so far, and the
`synced_files` accumulator. -/
structure St where
  fs : FS
  msgs : List Msg
  synced : List Path
  deriving DecidableEq, Repr

/-- The directories yielded by `os.walk(source_dir)` on the source tree:
the root first, then every directory, parents always before children.
The per-directory listing order of `os.walk` is unspecified; the model
fixes it by sorting, so the walk is the lexicographic order on segment
lists - exactly Python's comparison of the path-segment lists. -/
def srcWalk (fs : FS) : List Path :=
  [] :: List.insertionSort (fun a b => pathLe a b = true) fs.dirs

/-- The `files` component of the walk entry for directory `d`: the file
entries whose parent directory is `d`.  The path of such an entry is also
its own destination path relative to the destination root. -/
def childFiles (fs : FS) (d : Path) : List (Path × Nat) :=
  fs.files.filter (fun e => decide (e.1.dropLast = d ∧ e.1 ≠ []))

/-- The second half of `sync`'s per-file body: `if is_updated(src_file,
dest_file): copy2(...)`, then `synced_files.append(dest_file)`.
`get_checksum` of a destination path that is a directory raises
(`IsADirectoryError` from `open`), modelled by the `none` branch. -/
def updCheck (fail : Path → Bool) (st : St) (j : Path × Nat) : Except St St :=
  match st.fs.getFile j.1 with
  | none => .error st
  | some c0 =>
    if is_updated j.2 c0 then
      if fail j.1 then .error ⟨st.fs, st.msgs ++ [.fileUpdated j.1], st.synced⟩
      else
        match st.fs.writeFile j.1 j.2 with
        | some fs3 =>
          .ok ⟨fs3, st.msgs ++ [.fileUpdated j.1], st.synced ++ [j.1]⟩
        | none => .error ⟨st.fs, st.msgs ++ [.fileUpdated j.1], st.synced⟩
    else .ok ⟨st.fs, st.msgs, st.synced ++ [j.1]⟩

/-- The body of `sync`'s inner `for file in files` loop for one file
`j` (destination path and source content): copy it when absent, then the
`is_updated` check with its possible second copy, then append it to
`synced_files`.  `fail p` says that `copy2` onto `p` raises; the message
before a raising `copy2` is already printed.  A raised exception is an
`Except.error` carrying the state reached so far. -/
def copyStep (fail : Path → Bool) (st : St) (j : Path × Nat) : Except St St :=
  if st.fs.pathExists j.1 then updCheck fail st j
  else
    if fail j.1 then .error ⟨st.fs, st.msgs ++ [.fileCreated j.1], st.synced⟩
    else
      match st.fs.writeFile j.1 j.2 with
      | some fs2 => updCheck fail ⟨fs2, st.msgs ++ [.fileCreated j.1], st.synced⟩ j
      | none => .error ⟨st.fs, st.msgs ++ [.fileCreated j.1], st.synced⟩

/-- The inner file loop over the walk entry's file list. -/
def runJobs (fail : Path → Bool) : St → List (Path × Nat) → Except St St
  | st, [] => .ok st
  | st, j :: rest =>
    match copyStep fail st j with
    | .ok st1 => runJobs fail st1 rest
    | .error e => .error e

/-- The body of `sync`'s outer `for root, _, files in os.walk(...)` loop
for one source directory `d`: create the mirrored destination directory
when absent, then copy the directory's files. -/
def dirStep (fail : Path → Bool) (src : FS) (st : St) (d : Path) : Except St St :=
  if st.fs.pathExists d then runJobs fail st (childFiles src d)
  else
    match st.fs.mkdir d with
    | some fs2 =>
      runJobs fail ⟨fs2, st.msgs ++ [.destCreated d], st.synced⟩ (childFiles src d)
    | none => .error ⟨st.fs, st.msgs ++ [.destCreated d], st.synced⟩

/-- The outer loop of `sync` over the whole source walk. -/
def runDirs (fail : Path → Bool) (src : FS) : St → List Path → Except St St
  | st, [] => .ok st
  | st, d :: rest =>
    match dirStep fail src st d with
    | .ok st1 => runDirs fail src st1 rest
    | .error e => .error e

/-- One `sync` pass over an existing destination root `fs0`. -/
def syncFS (fail : Path → Bool) (src : FS) (fs0 : FS) : Except St St :=
  runDirs fail src ⟨fs0, [], []⟩ (srcWalk src)

/-- The observable state of a whole `sync` call: the destination root
(`none` when it does not exist), the messages, and the returned
`synced_files` list. -/
structure TopSt where
  dest : Option FS
  msgs : List Msg
  synced : List Path
  deriving DecidableEq, Repr

/-- Prefix the messages of a `syncFS` outcome and repackage it. -/
def liftSync (pre : List Msg) : Except St St → Except TopSt TopSt
  | .ok st => .ok ⟨some st.fs, pre ++ st.msgs, st.synced⟩
  | .error st => .error ⟨some st.fs, pre ++ st.msgs, st.synced⟩

/-- `sync(source_dir, dest_dir)`.  `src = none` models a missing (or
unreadable) source root, on which `os.walk` silently yields nothing;
`dst = none` models a missing destination root, which `sync` creates
with a single-level `os.mkdir` after printing the creation notice -
raising `FileNotFoundError` when the destination root's own parent
directory (`parentExists`) is missing. -/
def sync (fail : Path → Bool) (parentExists : Bool) (src dst : Option FS) :
    Except TopSt TopSt :=
  match dst with
  | some fs0 =>
    match src with
    | none => .ok ⟨some fs0, [], []⟩
    | some s => liftSync [] (syncFS fail s fs0)
  | none =>
    if parentExists then
      match src with
      | none => .ok ⟨some FS.empty, [.destCreated []], []⟩
      | some s => liftSync [.destCreated []] (syncFS fail s FS.empty)
    else .error ⟨none, [.destCreated []], []⟩

/-- No `copy2`/`os.remove` failure: the normal run. -/
def noFail : Path → Bool := fun _ => false

/-! ## The tree walker, the pruner, and the driver cycle -/

/-- `read_dir(directory)` restricted to an existing root: all file paths
of the walk, in walk order. -/
def readDirFS (fs : FS) : List Path :=
  (srcWalk fs).flatMap (fun d => (childFiles fs d).map Prod.fst)

/-- `read_dir(directory)`: the file paths below `directory`, the empty
list when the root does not exist (`os.walk` yields nothing). -/
def read_dir : Option FS → List Path
  | none => []
  | some fs => readDirFS fs

/-- `remove_files(files)`: delete each path of the list in order; an
`OSError` of one `os.remove` (modelled by `failDel`, or by the path not
being a regular file) is caught, reported at error severity, and the
loop continues.  Returns the tree and the messages in emission order. -/
def remove_files (failDel : Path → Bool) (fs : FS) : List Path → FS × List Msg
  | [] => (fs, [])
  | f :: rest =>
    if failDel f || !fs.isFile f then
      ((remove_files failDel fs rest).1,
        .removeError f :: (remove_files failDel fs rest).2)
    else
      ((remove_files failDel (fs.removeFile f) rest).1,
        .fileRemoved f :: (remove_files failDel (fs.removeFile f) rest).2)

/-- `dict.fromkeys`-style deduplication: keep the first occurrence of
every element, in order. -/
def dedupKeepFirst : List Path → List Path
  | [] => []
  | x :: xs => x :: (dedupKeepFirst xs).filter (fun y => decide (y ≠ x))

/-- The directory visit order of `remove_empty_folders`:
`list(os.walk(root_dir))[1:]` drops the root (the first walk entry),
`sorted(..., key=lambda x: x[0].split(os.path.sep), reverse=True)` sorts
the remaining directories by their segment lists in descending
lexicographic order (Python list comparison), and `dict.fromkeys`
deduplicates. -/
def visitOrder (fs : FS) : List Path :=
  dedupKeepFirst
    (List.insertionSort (fun a b => pathLe b a = true) ((srcWalk fs).drop 1))

/-- The loop of `remove_empty_folders`: for each visited directory, if
`os.listdir` finds it empty, print the notice and `rmtree` it.
`os.listdir` of a path that is no longer a directory raises, which would
propagate (`Except.error`). -/
def rmLoop : FS → List Msg → List Path → Except (FS × List Msg) (FS × List Msg)
  | fs, ms, [] => .ok (fs, ms)
  | fs, ms, d :: rest =>
    if fs.isDir d then
      if fs.listDirEmpty d then
        rmLoop (fs.rmtree d) (ms ++ [.emptyDirRemoved d]) rest
      else rmLoop fs ms rest
    else .error (fs, ms)

/-- `remove_empty_folders(root_dir)` on an existing root. -/
def remove_empty_folders (fs : FS) : Except (FS × List Msg) (FS × List Msg) :=
  rmLoop fs [] (visitOrder fs)

/-- One iteration of the `while True` driver loop (without the sleep):
`sync`, then - only when the returned list is non-empty - `read_dir` of
the destination, `remove_files` of the paths not in the sync result, and
`remove_empty_folders`. -/
def runCycle (parentExists : Bool) (src dst : Option FS) : Except TopSt TopSt :=
  match sync noFail parentExists src dst with
  | .error e => .error e
  | .ok st =>
    if st.synced.isEmpty then .ok st
    else
      match st.dest with
      | none => .ok st
      | some fs1 =>
        let toRemove := (read_dir (some fs1)).filter (fun f => !st.synced.contains f)
        let pr := remove_files noFail fs1 toRemove
        match remove_empty_folders pr.1 with
        | .ok out => .ok ⟨some out.1, st.msgs ++ pr.2 ++ out.2, st.synced⟩
        | .error out => .error ⟨some out.1, st.msgs ++ pr.2 ++ out.2, st.synced⟩

/-! ## Basic lemmas about the filesystem operations -/

theorem isFile_iff {fs : FS} {p : Path} :
    fs.isFile p = true ↔ ∃ c, (p, c) ∈ fs.files := by
  simp only [FS.isFile, List.any_eq_true, decide_eq_true_eq]
  constructor
  · rintro ⟨e, he, rfl⟩
    exact ⟨e.2, he⟩
  · rintro ⟨c, hc⟩
    exact ⟨(p, c), hc, rfl⟩

theorem isDir_iff {fs : FS} {p : Path} :
    fs.isDir p = true ↔ p = [] ∨ p ∈ fs.dirs := by
  simp [FS.isDir, List.contains, List.elem_iff]

theorem isDir_nil (fs : FS) : fs.isDir [] = true := by
  simp [FS.isDir]

theorem pathExists_iff {fs : FS} {p : Path} :
    fs.pathExists p = true ↔ fs.isFile p = true ∨ fs.isDir p = true := by
  simp [FS.pathExists]

theorem getFile_eq_none_iff {fs : FS} {p : Path} :
    fs.getFile p = none ↔ fs.isFile p = false := by
  unfold FS.getFile FS.isFile
  rw [Option.map_eq_none', List.find?_eq_none]
  simp [List.any_eq_true]

theorem isFile_iff_getFile {fs : FS} {p : Path} :
    fs.isFile p = true ↔ ∃ c, fs.getFile p = some c := by
  constructor
  · intro h
    have hne : fs.getFile p ≠ none := by
      intro hn
      rw [getFile_eq_none_iff.mp hn] at h
      cases h
    exact Option.ne_none_iff_exists'.mp hne
  · rintro ⟨c, hc⟩
    by_contra hf
    have : fs.getFile p = none := getFile_eq_none_iff.mpr (by
      cases hb : fs.isFile p
      · rfl
      · exact absurd hb hf)
    rw [this] at hc
    cases hc

theorem getFile_eq_some_mem {fs : FS} {p : Path} {c : Nat}
    (h : fs.getFile p = some c) : (p, c) ∈ fs.files := by
  unfold FS.getFile at h
  rw [Option.map_eq_some'] at h
  obtain ⟨e, he, hc⟩ := h
  have h1 := List.find?_some he
  have h2 := List.mem_of_find?_eq_some he
  simp only [decide_eq_true_eq] at h1
  have he2 : e = (p, c) := by
    obtain ⟨e1, e2⟩ := e
    simp only at h1 hc
    rw [h1, hc]
  rw [he2] at h2
  exact h2

theorem find_of_nodup {p : Path} {c : Nat} {l : List (Path × Nat)}
    (hnd : (l.map Prod.fst).Nodup) (h : (p, c) ∈ l) :
    l.find? (fun e => decide (e.1 = p)) = some (p, c) := by
  induction l with
  | nil => cases h
  | cons e rest ih =>
    simp only [List.map_cons, List.nodup_cons] at hnd
    rcases List.mem_cons.mp h with he | hrest
    · rw [← he]
      exact List.find?_cons_of_pos _ (by simp)
    · have hne : ¬(e.1 = p) := by
        intro hep
        exact hnd.1 (hep ▸ (List.mem_map_of_mem Prod.fst hrest))
      rw [List.find?_cons_of_neg _ (by simpa using hne)]
      exact ih hnd.2 hrest

theorem mem_getFile_of_nodup {fs : FS} {p : Path} {c : Nat}
    (hnd : (fs.files.map Prod.fst).Nodup) (h : (p, c) ∈ fs.files) :
    fs.getFile p = some c := by
  unfold FS.getFile
  rw [find_of_nodup hnd h]
  rfl

theorem isFile_of_mem {fs : FS} {e : Path × Nat} (he : e ∈ fs.files) :
    fs.isFile e.1 = true := by
  obtain ⟨a, b⟩ := e
  exact isFile_iff.mpr ⟨b, he⟩

theorem mem_keys_isFile {fs : FS} {p : Path} (h : p ∈ fs.files.map Prod.fst) :
    fs.isFile p = true := by
  obtain ⟨e, he, hkey⟩ := List.mem_map.mp h
  exact hkey ▸ isFile_of_mem he

theorem isFile_mem_keys {fs : FS} {p : Path} (h : fs.isFile p = true) :
    p ∈ fs.files.map Prod.fst := by
  obtain ⟨c, hc⟩ := isFile_iff.mp h
  exact List.mem_map.mpr ⟨(p, c), hc, rfl⟩

/-- The file-entry update performed by an overwriting `copy2`. -/
def updEntry (p : Path) (c : Nat) (e : Path × Nat) : Path × Nat :=
  if e.1 = p then (p, c) else e

theorem updEntry_fst (p : Path) (c : Nat) (e : Path × Nat) :
    (updEntry p c e).1 = e.1 := by
  unfold updEntry
  split <;> simp_all

theorem map_updEntry_fst (p : Path) (c : Nat) (l : List (Path × Nat)) :
    (l.map (updEntry p c)).map Prod.fst = l.map Prod.fst := by
  rw [List.map_map]
  exact List.map_congr_left fun e _ => updEntry_fst p c e

theorem find_map_updEntry_self {p : Path} {c : Nat} {l : List (Path × Nat)}
    (h : l.any (fun e => decide (e.1 = p)) = true) :
    (l.map (updEntry p c)).find? (fun e => decide (e.1 = p)) = some (p, c) := by
  induction l with
  | nil => simp at h
  | cons e rest ih =>
    by_cases hep : e.1 = p
    · simp [updEntry, hep]
    · rw [List.map_cons, List.find?_cons_of_neg]
      · apply ih
        simp only [List.any_cons, Bool.or_eq_true, decide_eq_true_eq] at h
        rcases h with h | h
        · exact absurd h hep
        · exact h
      · simp [updEntry, hep]

theorem find_map_updEntry_other {p q : Path} {c : Nat} {l : List (Path × Nat)}
    (hne : q ≠ p) :
    (l.map (updEntry p c)).find? (fun e => decide (e.1 = q)) =
      l.find? (fun e => decide (e.1 = q)) := by
  induction l with
  | nil => simp
  | cons e rest ih =>
    by_cases hep : e.1 = p
    · have h1 : updEntry p c e = (p, c) := by simp [updEntry, hep]
      have h2 : ¬((p, c).1 = q) := fun h => hne (h.symm)
      have h3 : ¬(e.1 = q) := fun h => hne (hep ▸ h : p = q).symm
      rw [List.map_cons, h1,
          List.find?_cons_of_neg _ (by simpa using h2),
          List.find?_cons_of_neg _ (by simpa using h3)]
      exact ih
    · rw [List.map_cons]
      have h1 : updEntry p c e = e := by simp [updEntry, hep]
      rw [h1]
      by_cases heq : e.1 = q
      · rw [List.find?_cons_of_pos _ (by simpa using heq),
            List.find?_cons_of_pos _ (by simpa using heq)]
      · rw [List.find?_cons_of_neg _ (by simpa using heq),
            List.find?_cons_of_neg _ (by simpa using heq)]
        exact ih

/-! ### `writeFile` and `mkdir` -/

/-- What a successful `copy2` does to the tree. -/
theorem writeFile_some {fs fs' : FS} {p : Path} {c : Nat}
    (h : fs.writeFile p c = some fs') :
    fs'.dirs = fs.dirs ∧
    fs'.getFile p = some c ∧
    (∀ q, q ≠ p → fs'.getFile q = fs.getFile q) ∧
    ((fs.isFile p = true ∧ fs'.files.map Prod.fst = fs.files.map Prod.fst) ∨
     (fs.isFile p = false ∧ fs'.files.map Prod.fst = fs.files.map Prod.fst ++ [p])) := by
  unfold FS.writeFile at h
  split at h
  case isTrue hf =>
    obtain rfl : fs' = ⟨fs.files.map (updEntry p c), fs.dirs⟩ := by
      cases h
      rfl
    refine ⟨rfl, ?_, ?_, Or.inl ⟨hf, map_updEntry_fst p c fs.files⟩⟩
    · show ((fs.files.map (updEntry p c)).find? (fun e => decide (e.1 = p))).map Prod.snd = some c
      rw [find_map_updEntry_self (by simpa [FS.isFile] using hf)]
      rfl
    · intro q hq
      show ((fs.files.map (updEntry p c)).find? (fun e => decide (e.1 = q))).map Prod.snd = _
      rw [find_map_updEntry_other hq]
      rfl
  case isFalse hf =>
    split at h
    case isTrue hcond =>
      obtain rfl : fs' = ⟨fs.files ++ [(p, c)], fs.dirs⟩ := by
        cases h
        rfl
      have hfp : fs.files.find? (fun e => decide (e.1 = p)) = none := by
        rw [List.find?_eq_none]
        intro e he hp
        simp only [decide_eq_true_eq] at hp
        exact absurd (hp ▸ isFile_of_mem he) (by simpa using hf)
      refine ⟨rfl, ?_, ?_, Or.inr ⟨by simpa using hf, by simp⟩⟩
      · show ((fs.files ++ [(p, c)]).find? (fun e => decide (e.1 = p))).map Prod.snd = some c
        rw [List.find?_append, hfp]
        simp
      · intro q hq
        show ((fs.files ++ [(p, c)]).find? (fun e => decide (e.1 = q))).map Prod.snd = _
        rw [List.find?_append]
        have : ([(p, c)].find? (fun e => decide (e.1 = q))) = none := by
          rw [List.find?_eq_none]
          intro e he hp
          simp only [List.mem_singleton] at he
          simp only [he, decide_eq_true_eq] at hp
          exact hq hp.symm
        rw [this]
        cases hfind : fs.files.find? (fun e => decide (e.1 = q)) <;> simp [FS.getFile, hfind]
    case isFalse => cases h

/-- The side conditions under which `copy2` succeeds. -/
theorem writeFile_isSome {fs : FS} {p : Path} {c : Nat}
    (h : (fs.writeFile p c).isSome = true) :
    fs.isFile p = true ∨ (fs.isDir p.dropLast = true ∧ fs.isDir p = false) := by
  unfold FS.writeFile at h
  split at h
  · exact Or.inl (by assumption)
  · split at h
    · rename_i hcond
      simp only [Bool.and_eq_true, Bool.not_eq_true'] at hcond
      exact Or.inr hcond
    · cases h

/-- `copy2` succeeds whenever the target is a regular file. -/
theorem writeFile_isSome_of_isFile {fs : FS} {p : Path} {c : Nat}
    (h : fs.isFile p = true) : (fs.writeFile p c).isSome = true := by
  unfold FS.writeFile
  rw [if_pos h]
  rfl

/-- `copy2` succeeds when the target is absent but its parent directory
exists. -/
theorem writeFile_isSome_of_create {fs : FS} {p : Path} {c : Nat}
    (hpar : fs.isDir p.dropLast = true) (hnd : fs.isDir p = false) :
    (fs.writeFile p c).isSome = true := by
  unfold FS.writeFile
  split
  · rfl
  · rw [if_pos (by simp [hpar, hnd])]
    rfl

/-- `copy2` preserves well-formedness. -/
theorem writeFile_WF {fs fs' : FS} {p : Path} {c : Nat}
    (hwf : fs.WF) (h : fs.writeFile p c = some fs') : fs'.WF := by
  obtain ⟨hdirs, _, _, hkeys⟩ := writeFile_some h
  rcases hkeys with ⟨_, hkeys⟩ | ⟨hnf, hkeys⟩
  · exact ⟨hkeys ▸ hwf.nodupFiles, hdirs ▸ hwf.nodupDirs,
      fun q hq => hdirs ▸ hwf.disjoint q (hkeys ▸ hq),
      fun q hq => hwf.filesNonRoot q (hkeys ▸ hq),
      fun d hd => hwf.dirsNonRoot d (hdirs ▸ hd),
      fun q hq => by
        rw [hdirs]
        exact hwf.filesParent q (hkeys ▸ hq),
      fun d hd => by
        rw [hdirs]
        exact hwf.dirsParent d (hdirs ▸ hd)⟩
  · have hcond : fs.isDir p.dropLast = true ∧ fs.isDir p = false := by
      rcases writeFile_isSome (by rw [h]; rfl) with hfile | hcond
      · rw [hfile] at hnf
        cases hnf
      · exact hcond
    have hpnotmem : p ∉ fs.files.map Prod.fst := by
      intro hmem
      obtain ⟨e, he, hkey⟩ := List.mem_map.mp hmem
      have : fs.isFile p = true := isFile_iff.mpr ⟨e.2, by
        obtain ⟨e1, e2⟩ := e
        simp only at hkey
        rw [← hkey]
        exact he⟩
      rw [this] at hnf
      cases hnf
    have hpne : p ≠ [] := by
      intro hnil
      rw [hnil] at hcond
      rw [isDir_nil] at hcond
      exact absurd hcond.2 (by simp)
    have hpnotdir : p ∉ fs.dirs := by
      intro hmem
      have : fs.isDir p = true := isDir_iff.mpr (Or.inr hmem)
      rw [this] at hcond
      exact absurd hcond.2 (by simp)
    refine ⟨?_, hdirs ▸ hwf.nodupDirs, ?_, ?_, ?_, ?_, ?_⟩
    · rw [hkeys]
      exact List.Nodup.append hwf.nodupFiles (List.nodup_singleton p)
        (by simpa using hpnotmem)
    · intro q hq
      rw [hkeys] at hq
      rw [hdirs]
      rcases List.mem_append.mp hq with hq | hq
      · exact hwf.disjoint q hq
      · simp only [List.mem_singleton] at hq
        exact hq ▸ hpnotdir
    · intro q hq
      rw [hkeys] at hq
      rcases List.mem_append.mp hq with hq | hq
      · exact hwf.filesNonRoot q hq
      · simp only [List.mem_singleton] at hq
        exact hq ▸ hpne
    · intro d hd
      exact hwf.dirsNonRoot d (hdirs ▸ hd)
    · intro q hq
      rw [hkeys] at hq
      rw [hdirs]
      rcases List.mem_append.mp hq with hq | hq
      · exact hwf.filesParent q hq
      · simp only [List.mem_singleton] at hq
        subst hq
        exact (isDir_iff.mp hcond.1).imp id id
    · intro d hd
      rw [hdirs]
      exact hwf.dirsParent d (hdirs ▸ hd)

/-- What a successful `os.mkdir` does to the tree, and its side
conditions. -/
theorem mkdir_some {fs fs' : FS} {p : Path}
    (h : fs.mkdir p = some fs') :
    fs'.files = fs.files ∧ fs'.dirs = fs.dirs ++ [p] ∧
    fs.isDir p.dropLast = true ∧ fs.pathExists p = false := by
  unfold FS.mkdir at h
  split at h
  case isTrue hcond =>
    obtain rfl : fs' = ⟨fs.files, fs.dirs ++ [p]⟩ := by
      cases h
      rfl
    simp only [Bool.and_eq_true, Bool.not_eq_true'] at hcond
    exact ⟨rfl, rfl, hcond.1, hcond.2⟩
  case isFalse => cases h

/-- `os.mkdir` succeeds when the parent exists and the target is absent. -/
theorem mkdir_isSome {fs : FS} {p : Path}
    (hpar : fs.isDir p.dropLast = true) (hne : fs.pathExists p = false) :
    (fs.mkdir p).isSome = true := by
  unfold FS.mkdir
  rw [if_pos (by simp [hpar, hne])]
  rfl

/-- `os.mkdir` preserves well-formedness. -/
theorem mkdir_WF {fs fs' : FS} {p : Path}
    (hwf : fs.WF) (h : fs.mkdir p = some fs') : fs'.WF := by
  obtain ⟨hfiles, hdirs, hpar, hne⟩ := mkdir_some h
  have hnf : fs.isFile p = false := by
    cases hb : fs.isFile p
    · rfl
    · rw [pathExists_iff.mpr (Or.inl hb)] at hne
      cases hne
  have hndir : fs.isDir p = false := by
    cases hb : fs.isDir p
    · rfl
    · rw [pathExists_iff.mpr (Or.inr hb)] at hne
      cases hne
  have hpne : p ≠ [] := by
    intro hnil
    rw [hnil, isDir_nil] at hndir
    cases hndir
  have hpnotdir : p ∉ fs.dirs := by
    intro hmem
    rw [isDir_iff.mpr (Or.inr hmem)] at hndir
    cases hndir
  have hpnotfile : p ∉ fs.files.map Prod.fst := by
    intro hmem
    obtain ⟨e, he, hkey⟩ := List.mem_map.mp hmem
    have : fs.isFile p = true := isFile_iff.mpr ⟨e.2, by
      obtain ⟨e1, e2⟩ := e
      simp only at hkey
      rw [← hkey]
      exact he⟩
    rw [this] at hnf
    cases hnf
  refine ⟨hfiles ▸ hwf.nodupFiles, ?_, ?_, ?_, ?_, ?_, ?_⟩
  · rw [hdirs]
    exact List.Nodup.append hwf.nodupDirs (List.nodup_singleton p)
      (by simpa using hpnotdir)
  · intro q hq
    rw [hfiles] at hq
    rw [hdirs]
    intro hmem
    rcases List.mem_append.mp hmem with hmem | hmem
    · exact hwf.disjoint q hq hmem
    · simp only [List.mem_singleton] at hmem
      exact hpnotfile (hmem ▸ hq)
  · intro q hq
    exact hwf.filesNonRoot q (hfiles ▸ hq)
  · intro d hd
    rw [hdirs] at hd
    rcases List.mem_append.mp hd with hd | hd
    · exact hwf.dirsNonRoot d hd
    · simp only [List.mem_singleton] at hd
      exact hd ▸ hpne
  · intro q hq
    rw [hfiles] at hq
    rw [hdirs]
    exact (hwf.filesParent q hq).imp id (fun hm => List.mem_append.mpr (Or.inl hm))
  · intro d hd
    rw [hdirs] at hd
    rw [hdirs]
    rcases List.mem_append.mp hd with hd | hd
    · exact (hwf.dirsParent d hd).imp id (fun hm => List.mem_append.mpr (Or.inl hm))
    · simp only [List.mem_singleton] at hd
      subst hd
      exact (isDir_iff.mp hpar).imp id (fun hm => List.mem_append.mpr (Or.inl hm))

/-! ### Derived monotonicity facts -/

/-- A tree extends another: all files and directories survive. -/
def FS.Extends (fs fs' : FS) : Prop :=
  (∀ d ∈ fs.dirs, d ∈ fs'.dirs) ∧
  (∀ q ∈ fs.files.map Prod.fst, q ∈ fs'.files.map Prod.fst)

theorem FS.Extends.refl (fs : FS) : fs.Extends fs :=
  ⟨fun _ h => h, fun _ h => h⟩

theorem FS.Extends.trans {a b c : FS} (h1 : a.Extends b) (h2 : b.Extends c) :
    a.Extends c :=
  ⟨fun d hd => h2.1 d (h1.1 d hd), fun q hq => h2.2 q (h1.2 q hq)⟩

theorem FS.Extends.isFile {a b : FS} (h : a.Extends b) {p : Path}
    (hp : a.isFile p = true) : b.isFile p = true := by
  obtain ⟨c, hc⟩ := isFile_iff.mp hp
  have : p ∈ b.files.map Prod.fst :=
    h.2 p (List.mem_map.mpr ⟨(p, c), hc, rfl⟩)
  obtain ⟨e, he, hkey⟩ := List.mem_map.mp this
  exact isFile_iff.mpr ⟨e.2, by
    obtain ⟨e1, e2⟩ := e
    simp only at hkey
    rw [← hkey]
    exact he⟩

theorem FS.Extends.isDir {a b : FS} (h : a.Extends b) {p : Path}
    (hp : a.isDir p = true) : b.isDir p = true := by
  rcases isDir_iff.mp hp with hnil | hmem
  · exact isDir_iff.mpr (Or.inl hnil)
  · exact isDir_iff.mpr (Or.inr (h.1 p hmem))

theorem FS.Extends.pathExists {a b : FS} (h : a.Extends b) {p : Path}
    (hp : a.pathExists p = true) : b.pathExists p = true := by
  rcases pathExists_iff.mp hp with hf | hd
  · exact pathExists_iff.mpr (Or.inl (h.isFile hf))
  · exact pathExists_iff.mpr (Or.inr (h.isDir hd))

theorem writeFile_extends {fs fs' : FS} {p : Path} {c : Nat}
    (h : fs.writeFile p c = some fs') : fs.Extends fs' := by
  obtain ⟨hdirs, _, _, hkeys⟩ := writeFile_some h
  refine ⟨fun d hd => hdirs ▸ hd, fun q hq => ?_⟩
  rcases hkeys with ⟨_, hkeys⟩ | ⟨_, hkeys⟩
  · rw [hkeys]
    exact hq
  · rw [hkeys]
    exact List.mem_append.mpr (Or.inl hq)

theorem mkdir_extends {fs fs' : FS} {p : Path}
    (h : fs.mkdir p = some fs') : fs.Extends fs' := by
  obtain ⟨hfiles, hdirs, _, _⟩ := mkdir_some h
  exact ⟨fun d hd => hdirs ▸ List.mem_append.mpr (Or.inl hd),
    fun q hq => hfiles ▸ hq⟩

/-! ### The per-file step of `sync` -/

/-- The state reached by a possibly-raising computation: Python mutations
done before a raise persist. -/
def outState : Except St St → St
  | .ok s => s
  | .error s => s

/-- Postcondition of one successful per-file step from `st` to `st'` on
job `j`: the path is appended to `synced_files`, the destination now
holds the source content at the job's path and is otherwise unchanged,
no directory changes, well-formedness is kept, and at most one copy
notice for the job's own path is printed. -/
def StepPost (st st' : St) (j : Path × Nat) : Prop :=
  st'.synced = st.synced ++ [j.1] ∧
  st'.fs.getFile j.1 = some j.2 ∧
  (∀ q, q ≠ j.1 → st'.fs.getFile q = st.fs.getFile q) ∧
  st'.fs.dirs = st.fs.dirs ∧
  (∀ q ∈ st.fs.files.map Prod.fst, q ∈ st'.fs.files.map Prod.fst) ∧
  (∀ q ∈ st'.fs.files.map Prod.fst, q ∈ st.fs.files.map Prod.fst ∨ q = j.1) ∧
  (st.fs.WF → st'.fs.WF) ∧
  (st'.msgs = st.msgs ∨ st'.msgs = st.msgs ++ [Msg.fileCreated j.1] ∨
    st'.msgs = st.msgs ++ [Msg.fileUpdated j.1])

theorem updCheck_ok {fail : Path → Bool} {st st' : St} {j : Path × Nat}
    (h : updCheck fail st j = .ok st') :
    StepPost st st' j ∧
    (st.fs.getFile j.1 = some j.2 → st'.msgs = st.msgs ∧ st'.fs = st.fs) := by
  unfold updCheck at h
  split at h
  case h_1 => cases h
  case h_2 c0 hg =>
    split at h
    case isTrue hu =>
      split at h
      case isTrue => cases h
      case isFalse =>
        split at h
        case h_1 fs3 hw =>
          injection h with h1
          subst h1
          obtain ⟨hdirs, hget, hother, hkeys⟩ := writeFile_some hw
          have hneq : j.2 ≠ c0 := by
            simpa [is_updated, get_checksum] using hu
          refine ⟨⟨rfl, hget, hother, hdirs, ?_, ?_, fun hwf => writeFile_WF hwf hw,
            Or.inr (Or.inr rfl)⟩, ?_⟩
          · intro q hq
            rcases hkeys with ⟨_, hk⟩ | ⟨_, hk⟩
            · rw [hk]
              exact hq
            · rw [hk]
              exact List.mem_append.mpr (Or.inl hq)
          · intro q hq
            rcases hkeys with ⟨_, hk⟩ | ⟨_, hk⟩
            · exact Or.inl (hk ▸ hq)
            · rw [hk] at hq
              rcases List.mem_append.mp hq with hq | hq
              · exact Or.inl hq
              · simp only [List.mem_singleton] at hq
                exact Or.inr hq
          · intro hgs
            rw [hg] at hgs
            injection hgs with hc
            exact absurd hc.symm hneq
        case h_2 => cases h
    case isFalse hu =>
      injection h with h1
      subst h1
      have heq : j.2 = c0 := by
        simpa [is_updated, get_checksum] using hu
      exact ⟨⟨rfl, by rw [hg, heq], fun q _ => rfl, rfl,
        fun q hq => hq, fun q hq => Or.inl hq, fun hwf => hwf, Or.inl rfl⟩,
        fun _ => ⟨rfl, rfl⟩⟩

theorem copyStep_ok {fail : Path → Bool} {st st' : St} {j : Path × Nat}
    (h : copyStep fail st j = .ok st') : StepPost st st' j := by
  unfold copyStep at h
  split at h
  case isTrue hex => exact (updCheck_ok h).1
  case isFalse hex =>
    split at h
    case isTrue => cases h
    case isFalse hfail =>
      split at h
      case h_2 => cases h
      case h_1 fs2 hw =>
        obtain ⟨hdirs, hget, hother, hkeys⟩ := writeFile_some hw
        have hmid := updCheck_ok h
        have hmidget : fs2.getFile j.1 = some j.2 := hget
        obtain ⟨hmsgs2, hfs2⟩ := hmid.2 hmidget
        obtain ⟨hsync, hget', hother', hdirs', hmono', hback', hwf', _⟩ := hmid.1
        have hnf : st.fs.isFile j.1 = false := by
          cases hb : st.fs.isFile j.1
          · rfl
          · exact absurd (pathExists_iff.mpr (Or.inl hb)) hex
        rcases hkeys with ⟨hf, _⟩ | ⟨_, hk⟩
        · rw [hnf] at hf
          cases hf
        refine ⟨hsync, by rw [hfs2]; exact hget, ?_, by rw [hfs2]; exact hdirs, ?_, ?_,
          ?_, Or.inr (Or.inl (by rw [hmsgs2]))⟩
        · intro q hq
          rw [hfs2]
          exact hother q hq
        · intro q hq
          rw [hfs2, hk]
          exact List.mem_append.mpr (Or.inl hq)
        · intro q hq
          rw [hfs2, hk] at hq
          rcases List.mem_append.mp hq with hq | hq
          · exact Or.inl hq
          · simp only [List.mem_singleton] at hq
            exact Or.inr hq
        · intro hwf
          rw [hfs2]
          exact writeFile_WF hwf hw

/-- A raising per-file step leaves `synced_files` alone, deletes nothing,
and touches no destination path other than the job's own. -/
theorem copyStep_error {fail : Path → Bool} {st e : St} {j : Path × Nat}
    (h : copyStep fail st j = .error e) :
    e.synced = st.synced ∧
    (∀ q, q ≠ j.1 → e.fs.getFile q = st.fs.getFile q) ∧
    e.fs.dirs = st.fs.dirs ∧
    (∀ q ∈ st.fs.files.map Prod.fst, q ∈ e.fs.files.map Prod.fst) := by
  have hupd : ∀ st0 : St, updCheck fail st0 j = .error e →
      e.synced = st0.synced ∧ e.fs = st0.fs := by
    intro st0 h0
    unfold updCheck at h0
    split at h0
    case h_1 =>
      injection h0 with h1
      subst h1
      exact ⟨rfl, rfl⟩
    case h_2 c0 hg =>
      split at h0
      case isTrue =>
        split at h0
        case isTrue =>
          injection h0 with h1
          subst h1
          exact ⟨rfl, rfl⟩
        case isFalse =>
          split at h0
          case h_1 => cases h0
          case h_2 =>
            injection h0 with h1
            subst h1
            exact ⟨rfl, rfl⟩
      case isFalse => cases h0
  unfold copyStep at h
  split at h
  case isTrue hex =>
    obtain ⟨h1, h2⟩ := hupd st h
    rw [h1, h2]
    exact ⟨rfl, fun q _ => rfl, rfl, fun q hq => hq⟩
  case isFalse hex =>
    split at h
    case isTrue =>
      injection h with h1
      subst h1
      exact ⟨rfl, fun q _ => rfl, rfl, fun q hq => hq⟩
    case isFalse hfail =>
      split at h
      case h_2 =>
        injection h with h1
        subst h1
        exact ⟨rfl, fun q _ => rfl, rfl, fun q hq => hq⟩
      case h_1 fs2 hw =>
        obtain ⟨h1, h2⟩ := hupd _ h
        obtain ⟨hdirs, hget, hother, hkeys⟩ := writeFile_some hw
        rw [h1, h2]
        refine ⟨rfl, hother, hdirs, ?_⟩
        intro q hq
        rcases hkeys with ⟨_, hk⟩ | ⟨_, hk⟩
        · exact hk ▸ hq
        · rw [hk]
          exact List.mem_append.mpr (Or.inl hq)

/-! ### The path order -/

theorem ltData_irrefl : ∀ l, ltData l l = false
  | [] => rfl
  | a :: as => by
    unfold ltData
    rw [if_pos rfl]
    exact ltData_irrefl as

theorem ltData_connex : ∀ {a b : List Char}, a ≠ b →
    ltData a b = true ∨ ltData b a = true
  | [], [], h => absurd rfl h
  | [], _ :: _, _ => Or.inl rfl
  | _ :: _, [], _ => Or.inr rfl
  | a :: as, b :: bs, h => by
    unfold ltData
    by_cases hab : a = b
    · subst hab
      rw [if_pos rfl, if_pos rfl]
      exact ltData_connex (fun he => h (by rw [he]))
    · rw [if_neg hab, if_neg (Ne.symm hab)]
      have hn : a.toNat ≠ b.toNat := fun he =>
        hab (Char.ext (UInt32.toNat.inj he))
      rcases Nat.lt_or_ge a.toNat b.toNat with hlt | hge
      · exact Or.inl (by simpa using hlt)
      · exact Or.inr (by simpa using Nat.lt_of_le_of_ne hge (Ne.symm hn))

theorem ltData_asymm : ∀ {a b : List Char},
    ltData a b = true → ltData b a = false
  | [], [], h => by cases h
  | [], _ :: _, _ => rfl
  | _ :: _, [], h => by cases h
  | a :: as, b :: bs, h => by
    unfold ltData at h ⊢
    by_cases hab : a = b
    · subst hab
      rw [if_pos rfl] at h ⊢
      exact ltData_asymm h
    · rw [if_neg hab] at h
      rw [if_neg (Ne.symm hab)]
      simp only [decide_eq_true_eq] at h
      simpa using Nat.le_of_lt h

theorem ltData_trans : ∀ {a b c : List Char},
    ltData a b = true → ltData b c = true → ltData a c = true
  | [], _, _ :: _, _, _ => rfl
  | [], [], [], _, hbc => by cases hbc
  | [], _ :: _, [], _, hbc => by cases hbc
  | _ :: _, [], _, hab, _ => by cases hab
  | _ :: _, _ :: _, [], _, hbc => by cases hbc
  | a :: as, b :: bs, c :: cs, hab, hbc => by
    unfold ltData at hab hbc ⊢
    by_cases hab' : a = b
    · subst hab'
      rw [if_pos rfl] at hab
      by_cases hac : a = c
      · subst hac
        rw [if_pos rfl] at hbc ⊢
        exact ltData_trans hab hbc
      · rw [if_neg hac] at hbc ⊢
        exact hbc
    · rw [if_neg hab'] at hab
      by_cases hbc' : b = c
      · subst hbc'
        rw [if_neg hab']
        exact hab
      · rw [if_neg hbc'] at hbc
        simp only [decide_eq_true_eq] at hab hbc
        have hac' : a ≠ c := by
          intro he
          subst he
          exact absurd (Nat.lt_trans hab hbc) (Nat.lt_irrefl _)
        rw [if_neg hac']
        simpa using Nat.lt_trans hab hbc

theorem segLt_irrefl (a : String) : segLt a a = false :=
  ltData_irrefl a.data

theorem segLt_connex {a b : String} (h : a ≠ b) :
    segLt a b = true ∨ segLt b a = true :=
  ltData_connex (fun he => h (String.ext he))

theorem segLt_asymm {a b : String} (h : segLt a b = true) :
    segLt b a = false :=
  ltData_asymm h

theorem segLt_trans {a b c : String} (h1 : segLt a b = true)
    (h2 : segLt b c = true) : segLt a c = true :=
  ltData_trans h1 h2

theorem pathLe_refl : ∀ a : Path, pathLe a a = true
  | [] => rfl
  | a :: as => by
    unfold pathLe
    rw [if_pos rfl]
    exact pathLe_refl as

theorem pathLe_total : ∀ a b : Path, pathLe a b = true ∨ pathLe b a = true
  | [], _ => Or.inl rfl
  | _ :: _, [] => Or.inr rfl
  | a :: as, b :: bs => by
    unfold pathLe
    by_cases hab : a = b
    · subst hab
      rw [if_pos rfl, if_pos rfl]
      exact pathLe_total as bs
    · rw [if_neg hab, if_neg (Ne.symm hab)]
      exact segLt_connex hab

theorem pathLe_antisymm : ∀ {a b : Path},
    pathLe a b = true → pathLe b a = true → a = b
  | [], [], _, _ => rfl
  | [], _ :: _, _, hba => by cases hba
  | _ :: _, [], hab, _ => by cases hab
  | a :: as, b :: bs, hab, hba => by
    unfold pathLe at hab hba
    by_cases hab' : a = b
    · subst hab'
      rw [if_pos rfl] at hab hba
      rw [pathLe_antisymm hab hba]
    · rw [if_neg hab'] at hab
      rw [if_neg (Ne.symm hab')] at hba
      rw [segLt_asymm hab] at hba
      cases hba

theorem pathLe_trans : ∀ {a b c : Path},
    pathLe a b = true → pathLe b c = true → pathLe a c = true
  | [], _, _, _, _ => rfl
  | _ :: _, [], _, hab, _ => by cases hab
  | _ :: _, _ :: _, [], _, hbc => by cases hbc
  | a :: as, b :: bs, c :: cs, hab, hbc => by
    unfold pathLe at hab hbc ⊢
    by_cases hab' : a = b
    · subst hab'
      rw [if_pos rfl] at hab
      by_cases hac : a = c
      · subst hac
        rw [if_pos rfl] at hbc ⊢
        exact pathLe_trans hab hbc
      · rw [if_neg hac] at hbc ⊢
        exact hbc
    · rw [if_neg hab'] at hab
      by_cases hbc' : b = c
      · subst hbc'
        rw [if_neg hab']
        exact hab
      · rw [if_neg hbc'] at hbc
        have hac' : a ≠ c := by
          intro he
          subst he
          rw [segLt_asymm hab] at hbc
          cases hbc
        rw [if_neg hac']
        exact segLt_trans hab hbc

/-- A prefix compares no greater: Python orders an ancestor directory
before its descendants. -/
theorem pathLe_of_ancestor : ∀ {a b : Path}, a <+: b → pathLe a b = true
  | [], _, _ => rfl
  | a :: as, b, hpre => by
    obtain ⟨t, ht⟩ := hpre
    subst ht
    show pathLe (a :: as) (a :: (as ++ t)) = true
    unfold pathLe
    rw [if_pos rfl]
    exact pathLe_of_ancestor ⟨t, rfl⟩

instance : IsTotal Path (fun a b => pathLe b a = true) :=
  ⟨fun a b => (pathLe_total b a).elim Or.inl Or.inr⟩

instance : IsTrans Path (fun a b => pathLe b a = true) :=
  ⟨fun _ _ _ h1 h2 => pathLe_trans h2 h1⟩

/-! ### The file loop of one walk entry -/

theorem runJobs_ok {fail : Path → Bool} {st st' : St} {jobs : List (Path × Nat)}
    (hnd : (jobs.map Prod.fst).Nodup)
    (h : runJobs fail st jobs = .ok st') :
    st'.synced = st.synced ++ jobs.map Prod.fst ∧
    (∀ j ∈ jobs, st'.fs.getFile j.1 = some j.2) ∧
    (∀ q, q ∉ jobs.map Prod.fst → st'.fs.getFile q = st.fs.getFile q) ∧
    st'.fs.dirs = st.fs.dirs ∧
    (∀ q ∈ st.fs.files.map Prod.fst, q ∈ st'.fs.files.map Prod.fst) ∧
    (∀ q ∈ st'.fs.files.map Prod.fst,
      q ∈ st.fs.files.map Prod.fst ∨ q ∈ jobs.map Prod.fst) ∧
    (st.fs.WF → st'.fs.WF) := by
  induction jobs generalizing st with
  | nil =>
    unfold runJobs at h
    injection h with h1
    subst h1
    exact ⟨by simp, by simp, fun q _ => rfl, rfl, fun q hq => hq,
      fun q hq => Or.inl hq, fun hwf => hwf⟩
  | cons j rest ih =>
    unfold runJobs at h
    simp only [List.map_cons, List.nodup_cons] at hnd
    obtain ⟨hj1, hndrest⟩ := hnd
    split at h
    case h_2 => cases h
    case h_1 st1 hcs =>
      obtain ⟨hsync1, hget1, hother1, hdirs1, hmono1, hback1, hwf1, _⟩ :=
        copyStep_ok hcs
      obtain ⟨hsync2, hget2, hother2, hdirs2, hmono2, hback2, hwf2⟩ :=
        ih hndrest h
      refine ⟨?_, ?_, ?_, by rw [hdirs2, hdirs1], ?_, ?_, fun hwf => hwf2 (hwf1 hwf)⟩
      · rw [hsync2, hsync1]
        simp
      · intro j' hj'
        rcases List.mem_cons.mp hj' with rfl | hj'
        · rw [hother2 j'.1 hj1, hget1]
        · exact hget2 j' hj'
      · intro q hq
        simp only [List.map_cons, List.mem_cons, not_or] at hq
        rw [hother2 q hq.2, hother1 q hq.1]
      · intro q hq
        exact hmono2 q (hmono1 q hq)
      · intro q hq
        rcases hback2 q hq with hq' | hq'
        · rcases hback1 q hq' with hq'' | hq''
          · exact Or.inl hq''
          · exact Or.inr (by simp [hq''])
        · exact Or.inr (by simp [hq'])

theorem runJobs_out {fail : Path → Bool} {st : St} {jobs : List (Path × Nat)} :
    st.fs.Extends (outState (runJobs fail st jobs)).fs ∧
    (outState (runJobs fail st jobs)).fs.dirs = st.fs.dirs ∧
    (∀ q, q ∉ jobs.map Prod.fst →
      (outState (runJobs fail st jobs)).fs.getFile q = st.fs.getFile q) := by
  induction jobs generalizing st with
  | nil =>
    exact ⟨FS.Extends.refl _, rfl, fun q _ => rfl⟩
  | cons j rest ih =>
    show st.fs.Extends (outState (runJobs fail st (j :: rest))).fs ∧ _
    unfold runJobs
    cases hcs : copyStep fail st j with
    | ok st1 =>
      obtain ⟨_, _, hother1, hdirs1, hmono1, _, _, _⟩ := copyStep_ok hcs
      obtain ⟨hext2, hdirs2, hother2⟩ := @ih st1
      have hext1 : st.fs.Extends st1.fs :=
        ⟨fun d hd => hdirs1 ▸ hd, hmono1⟩
      refine ⟨hext1.trans hext2, by rw [hdirs2, hdirs1], ?_⟩
      intro q hq
      simp only [List.map_cons, List.mem_cons, not_or] at hq
      rw [hother2 q hq.2, hother1 q hq.1]
    | error e =>
      obtain ⟨_, hother1, hdirs1, hmono1⟩ := copyStep_error hcs
      refine ⟨⟨fun d hd => hdirs1 ▸ hd, hmono1⟩, hdirs1, ?_⟩
      intro q hq
      simp only [List.map_cons, List.mem_cons, not_or] at hq
      exact hother1 q hq.1

/-! ### One walk entry -/

/-- Every file path of a walk entry lies immediately inside its
directory. -/
theorem childFiles_dropLast {src : FS} {d : Path} {q : Path}
    (hq : q ∈ (childFiles src d).map Prod.fst) : q.dropLast = d ∧ q ≠ [] := by
  obtain ⟨e, he, hkey⟩ := List.mem_map.mp hq
  have := List.of_mem_filter he
  simp only [decide_eq_true_eq] at this
  exact hkey ▸ this

theorem childFiles_sub {src : FS} {d : Path} {q : Path}
    (hq : q ∈ (childFiles src d).map Prod.fst) :
    q ∈ src.files.map Prod.fst := by
  obtain ⟨e, he, hkey⟩ := List.mem_map.mp hq
  exact hkey ▸ List.mem_map_of_mem Prod.fst (List.mem_of_mem_filter he)

theorem childFiles_nodup {src : FS} (hwf : src.WF) (d : Path) :
    ((childFiles src d).map Prod.fst).Nodup := by
  have hsub : List.Sublist ((childFiles src d).map Prod.fst)
      (src.files.map Prod.fst) :=
    (List.filter_sublist src.files).map Prod.fst
  exact hwf.nodupFiles.sublist hsub

theorem dirStep_ok {fail : Path → Bool} {src : FS} {st st' : St} {d : Path}
    (hnd : ((childFiles src d).map Prod.fst).Nodup)
    (h : dirStep fail src st d = .ok st') :
    st'.synced = st.synced ++ (childFiles src d).map Prod.fst ∧
    (∀ j ∈ childFiles src d, st'.fs.getFile j.1 = some j.2) ∧
    (∀ q, q ∉ (childFiles src d).map Prod.fst →
      st'.fs.getFile q = st.fs.getFile q) ∧
    (∀ q ∈ st.fs.dirs, q ∈ st'.fs.dirs) ∧
    (∀ q ∈ st'.fs.dirs, q ∈ st.fs.dirs ∨ q = d) ∧
    (∀ q ∈ st.fs.files.map Prod.fst, q ∈ st'.fs.files.map Prod.fst) ∧
    (∀ q ∈ st'.fs.files.map Prod.fst,
      q ∈ st.fs.files.map Prod.fst ∨ q ∈ (childFiles src d).map Prod.fst) ∧
    (st.fs.WF → st'.fs.WF) ∧
    st'.fs.pathExists d = true := by
  unfold dirStep at h
  split at h
  case isTrue hex =>
    obtain ⟨hs, hg, ho, hd, hm, hb, hw⟩ := runJobs_ok hnd h
    have hext : st.fs.Extends st'.fs := ⟨fun q hq => hd ▸ hq, hm⟩
    exact ⟨hs, hg, ho, fun q hq => hd ▸ hq, fun q hq => Or.inl (hd ▸ hq), hm, hb,
      hw, hext.pathExists hex⟩
  case isFalse hex =>
    split at h
    case h_2 => cases h
    case h_1 fs2 hmk =>
      obtain ⟨hfiles, hdirs, _, _⟩ := mkdir_some hmk
      obtain ⟨hs, hg, ho, hd, hm, hb, hw⟩ := runJobs_ok hnd h
      have hgd : ∀ q, fs2.getFile q = st.fs.getFile q := by
        intro q
        unfold FS.getFile
        rw [hfiles]
      refine ⟨by rw [hs], hg, ?_, ?_, ?_, ?_, ?_, ?_, ?_⟩
      · intro q hq
        rw [ho q hq, hgd q]
      · intro q hq
        rw [hd, hdirs]
        exact List.mem_append.mpr (Or.inl hq)
      · intro q hq
        rw [hd, hdirs] at hq
        rcases List.mem_append.mp hq with hq | hq
        · exact Or.inl hq
        · simp only [List.mem_singleton] at hq
          exact Or.inr hq
      · intro q hq
        exact hm q (by rw [hfiles]; exact hq)
      · intro q hq
        rcases hb q hq with hq' | hq'
        · exact Or.inl (by rw [hfiles] at hq'; exact hq')
        · exact Or.inr hq'
      · intro hwf
        exact hw (mkdir_WF hwf hmk)
      · have hdmem : d ∈ fs2.dirs := by
          rw [hdirs]
          exact List.mem_append.mpr (Or.inr (List.mem_singleton.mpr rfl))
        exact pathExists_iff.mpr (Or.inr (isDir_iff.mpr (Or.inr (hd ▸ hdmem))))

theorem dirStep_out {fail : Path → Bool} {src : FS} {st : St} {d : Path} :
    st.fs.Extends (outState (dirStep fail src st d)).fs ∧
    (∀ q, q ∉ (childFiles src d).map Prod.fst →
      (outState (dirStep fail src st d)).fs.getFile q = st.fs.getFile q) := by
  unfold dirStep
  split
  case isTrue => exact ⟨runJobs_out.1, fun q hq => runJobs_out.2.2 q hq⟩
  case isFalse hex =>
    split
    case h_2 =>
      exact ⟨FS.Extends.refl _, fun q _ => rfl⟩
    case h_1 fs2 hmk =>
      obtain ⟨hfiles, hdirs, _, _⟩ := mkdir_some hmk
      have hgd : ∀ q, fs2.getFile q = st.fs.getFile q := by
        intro q
        unfold FS.getFile
        rw [hfiles]
      have hext1 : st.fs.Extends fs2 := mkdir_extends hmk
      have hjo := @runJobs_out fail
        ⟨fs2, st.msgs ++ [Msg.destCreated d], st.synced⟩
        (childFiles src d)
      refine ⟨hext1.trans hjo.1, ?_⟩
      intro q hq
      rw [hjo.2.2 q hq, hgd q]

/-! ### The outer directory loop -/

theorem runDirs_ok {fail : Path → Bool} {src : FS} {st st' : St} {ds : List Path}
    (hnd : ds.Nodup)
    (hsub : ∀ d ∈ ds, ((childFiles src d).map Prod.fst).Nodup)
    (h : runDirs fail src st ds = .ok st') :
    st'.synced = st.synced ++ ds.flatMap (fun d => (childFiles src d).map Prod.fst) ∧
    (∀ d ∈ ds, ∀ j ∈ childFiles src d, st'.fs.getFile j.1 = some j.2) ∧
    (∀ q, (∀ d ∈ ds, q ∉ (childFiles src d).map Prod.fst) →
      st'.fs.getFile q = st.fs.getFile q) ∧
    (∀ q ∈ st.fs.dirs, q ∈ st'.fs.dirs) ∧
    (∀ q ∈ st'.fs.dirs, q ∈ st.fs.dirs ∨ q ∈ ds) ∧
    (∀ q ∈ st.fs.files.map Prod.fst, q ∈ st'.fs.files.map Prod.fst) ∧
    (∀ q ∈ st'.fs.files.map Prod.fst, q ∈ st.fs.files.map Prod.fst ∨
      ∃ d ∈ ds, q ∈ (childFiles src d).map Prod.fst) ∧
    (st.fs.WF → st'.fs.WF) ∧
    (∀ d ∈ ds, st'.fs.pathExists d = true) := by
  induction ds generalizing st with
  | nil =>
    unfold runDirs at h
    injection h with h1
    subst h1
    exact ⟨by simp, by simp, fun q _ => rfl, fun q hq => hq,
      fun q hq => Or.inl hq, fun q hq => hq,
      fun q hq => Or.inl hq, fun hwf => hwf, by simp⟩
  | cons d rest ih =>
    unfold runDirs at h
    obtain ⟨hd1, hndrest⟩ := List.nodup_cons.mp hnd
    split at h
    case h_2 => cases h
    case h_1 st1 hds =>
      obtain ⟨hs1, hg1, ho1, hdm1, hdb1, hm1, hb1, hw1, hex1⟩ :=
        dirStep_ok (hsub d (List.mem_cons_self d rest)) hds
      obtain ⟨hs2, hg2, ho2, hdm2, hdb2, hm2, hb2, hw2, hex2⟩ :=
        ih hndrest (fun d' hd' => hsub d' (List.mem_cons_of_mem d hd')) h
      have hext2 : st1.fs.Extends st'.fs := ⟨hdm2, hm2⟩
      refine ⟨?_, ?_, ?_, ?_, ?_, ?_, ?_, fun hwf => hw2 (hw1 hwf), ?_⟩
      · rw [hs2, hs1]
        simp
      · intro d' hd' j hj
        rcases List.mem_cons.mp hd' with rfl | hd'
        · have hkeep : ∀ d2 ∈ rest, j.1 ∉ (childFiles src d2).map Prod.fst := by
            intro d2 hd2 hj2
            have hk1 := (childFiles_dropLast (List.mem_map_of_mem Prod.fst hj)).1
            have hk2 := (childFiles_dropLast hj2).1
            rw [← hk2, hk1] at hd2
            exact hd1 hd2
          rw [ho2 j.1 hkeep]
          exact hg1 j hj
        · exact hg2 d' hd' j hj
      · intro q hq
        rw [ho2 q (fun d' hd' => hq d' (List.mem_cons_of_mem d hd')),
          ho1 q (hq d (List.mem_cons_self d rest))]
      · intro q hq
        exact hdm2 q (hdm1 q hq)
      · intro q hq
        rcases hdb2 q hq with hq' | hq'
        · rcases hdb1 q hq' with hq'' | hq''
          · exact Or.inl hq''
          · exact Or.inr (by simp [hq''])
        · exact Or.inr (List.mem_cons_of_mem d hq')
      · intro q hq
        exact hm2 q (hm1 q hq)
      · intro q hq
        rcases hb2 q hq with hq' | hq'
        · rcases hb1 q hq' with hq'' | hq''
          · exact Or.inl hq''
          · exact Or.inr ⟨d, List.mem_cons_self d rest, hq''⟩
        · obtain ⟨d', hd', hq''⟩ := hq'
          exact Or.inr ⟨d', List.mem_cons_of_mem d hd', hq''⟩
      · intro d' hd'
        rcases List.mem_cons.mp hd' with rfl | hd'
        · exact hext2.pathExists hex1
        · exact hex2 d' hd'

theorem runDirs_out {fail : Path → Bool} {src : FS} {st : St} {ds : List Path} :
    st.fs.Extends (outState (runDirs fail src st ds)).fs ∧
    (∀ q, (∀ d ∈ ds, q ∉ (childFiles src d).map Prod.fst) →
      (outState (runDirs fail src st ds)).fs.getFile q = st.fs.getFile q) := by
  induction ds generalizing st with
  | nil => exact ⟨FS.Extends.refl _, fun q _ => rfl⟩
  | cons d rest ih =>
    show st.fs.Extends (outState (runDirs fail src st (d :: rest))).fs ∧ _
    unfold runDirs
    obtain ⟨hext1, ho1⟩ := @dirStep_out fail src st d
    cases hds : dirStep fail src st d with
    | ok st1 =>
      rw [hds] at hext1 ho1
      simp only [outState] at hext1 ho1
      obtain ⟨hext2, ho2⟩ := @ih st1
      refine ⟨hext1.trans hext2, ?_⟩
      intro q hq
      rw [ho2 q (fun d' hd' => hq d' (List.mem_cons_of_mem d hd')),
        ho1 q (hq d (List.mem_cons_self d rest))]
    | error e =>
      rw [hds] at hext1 ho1
      simp only [outState] at hext1 ho1
      exact ⟨hext1, fun q hq => ho1 q (hq d (List.mem_cons_self d rest))⟩

/-! ### The whole pass -/

theorem srcWalk_mem {fs : FS} {d : Path} :
    d ∈ srcWalk fs ↔ d = [] ∨ d ∈ fs.dirs := by
  unfold srcWalk
  rw [List.mem_cons, List.mem_insertionSort]

theorem srcWalk_nodup {fs : FS} (hwf : fs.WF) : (srcWalk fs).Nodup := by
  unfold srcWalk
  rw [List.nodup_cons]
  exact ⟨fun hmem => hwf.dirsNonRoot []
      ((List.mem_insertionSort _).mp hmem) rfl,
    ((List.perm_insertionSort _ _).nodup_iff).mpr hwf.nodupDirs⟩

theorem readDirFS_mem {fs : FS} (hwf : fs.WF) {p : Path} :
    p ∈ readDirFS fs ↔ p ∈ fs.files.map Prod.fst := by
  unfold readDirFS
  rw [List.mem_flatMap]
  constructor
  · rintro ⟨d, _, hp⟩
    exact childFiles_sub hp
  · intro hp
    obtain ⟨e, he, hkey⟩ := List.mem_map.mp hp
    refine ⟨p.dropLast, ?_, ?_⟩
    · rcases hwf.filesParent p hp with h | h
      · rw [h]
        exact srcWalk_mem.mpr (Or.inl rfl)
      · exact srcWalk_mem.mpr (Or.inr h)
    · refine List.mem_map.mpr ⟨e, List.mem_filter.mpr ⟨he, ?_⟩, hkey⟩
      simp only [decide_eq_true_eq]
      exact ⟨by rw [hkey], by rw [hkey]; exact hwf.filesNonRoot p hp⟩

theorem readDirFS_nodup {fs : FS} (hwf : fs.WF) : (readDirFS fs).Nodup := by
  unfold readDirFS
  rw [List.nodup_flatMap]
  refine ⟨fun d _ => childFiles_nodup hwf d, ?_⟩
  have : ∀ d1 d2 : Path, d1 ≠ d2 →
      List.Disjoint ((childFiles fs d1).map Prod.fst)
        ((childFiles fs d2).map Prod.fst) := by
    intro d1 d2 hne q hq1 hq2
    exact hne ((childFiles_dropLast hq1).1 ▸ (childFiles_dropLast hq2).1 ▸ rfl)
  have hnd := srcWalk_nodup hwf
  exact List.Pairwise.imp_of_mem
    (fun {a b} _ _ hab => this a b hab) hnd

/-- The success characterization of one whole `sync` pass over an
existing destination root: the returned list is exactly the walk of the
source's files; the destination now stores the source content at every
source file path and is unchanged elsewhere; no file or directory was
removed; new directories come from the walk, new files from the source;
well-formedness is preserved; and every walked directory now exists. -/
theorem syncFS_ok {fail : Path → Bool} {src fs0 : FS} {st' : St}
    (hwf : src.WF) (h : syncFS fail src fs0 = .ok st') :
    st'.synced = readDirFS src ∧
    (∀ j ∈ src.files, st'.fs.getFile j.1 = some j.2) ∧
    (∀ q, q ∉ src.files.map Prod.fst → st'.fs.getFile q = fs0.getFile q) ∧
    (∀ q ∈ fs0.dirs, q ∈ st'.fs.dirs) ∧
    (∀ q ∈ st'.fs.dirs, q ∈ fs0.dirs ∨ q ∈ srcWalk src) ∧
    (∀ q ∈ fs0.files.map Prod.fst, q ∈ st'.fs.files.map Prod.fst) ∧
    (∀ q ∈ st'.fs.files.map Prod.fst,
      q ∈ fs0.files.map Prod.fst ∨ q ∈ src.files.map Prod.fst) ∧
    (fs0.WF → st'.fs.WF) ∧
    (∀ d ∈ srcWalk src, st'.fs.pathExists d = true) := by
  unfold syncFS at h
  obtain ⟨hs, hg, ho, hdm, hdb, hm, hb, hw, hex⟩ :=
    runDirs_ok (srcWalk_nodup hwf) (fun d _ => childFiles_nodup hwf d) h
  refine ⟨by rw [hs]; rfl, ?_, ?_, hdm, hdb, hm, ?_, hw, hex⟩
  · intro j hj
    have hkey : j.1 ∈ src.files.map Prod.fst := List.mem_map_of_mem Prod.fst hj
    have hd : j.1.dropLast ∈ srcWalk src := by
      rcases hwf.filesParent j.1 hkey with h' | h'
      · rw [h']
        exact srcWalk_mem.mpr (Or.inl rfl)
      · exact srcWalk_mem.mpr (Or.inr h')
    refine hg j.1.dropLast hd j (List.mem_filter.mpr ⟨hj, ?_⟩)
    simp only [decide_eq_true_eq]
    exact ⟨trivial, hwf.filesNonRoot j.1 hkey⟩
  · intro q hq
    refine ho q ?_
    intro d _ hqd
    exact hq (childFiles_sub hqd)
  · intro q hq
    rcases hb q hq with hq' | hq'
    · exact Or.inl hq'
    · obtain ⟨d, _, hqd⟩ := hq'
      exact Or.inr (childFiles_sub hqd)

/-- Whatever happens during a pass (including a raise), the destination
only grows, and paths other than source file paths keep their content. -/
theorem syncFS_out {fail : Path → Bool} {src fs0 : FS} :
    fs0.Extends (outState (syncFS fail src fs0)).fs ∧
    (∀ q, q ∉ src.files.map Prod.fst →
      (outState (syncFS fail src fs0)).fs.getFile q = fs0.getFile q) := by
  unfold syncFS
  have hro := @runDirs_out fail src ⟨fs0, [], []⟩ (srcWalk src)
  refine ⟨hro.1, ?_⟩
  intro q hq
  refine hro.2 q ?_
  intro d _ hqd
  exact hq (childFiles_sub hqd)

/-! ### The file-removal step of the pruner -/

/-- A tree whose files are filtered stays well-formed. -/
theorem WF_filter_files {fs : FS} (hwf : fs.WF) (p : Path × Nat → Bool) :
    (FS.mk (fs.files.filter p) fs.dirs).WF := by
  have hsub : List.Sublist ((fs.files.filter p).map Prod.fst)
      (fs.files.map Prod.fst) :=
    (List.filter_sublist fs.files).map Prod.fst
  refine ⟨hwf.nodupFiles.sublist hsub, hwf.nodupDirs, ?_, ?_, hwf.dirsNonRoot,
    ?_, hwf.dirsParent⟩
  · intro q hq
    exact hwf.disjoint q (hsub.mem hq)
  · intro q hq
    exact hwf.filesNonRoot q (hsub.mem hq)
  · intro q hq
    exact hwf.filesParent q (hsub.mem hq)

theorem removeFile_isFile_other {fs : FS} {f q : Path} (hne : q ≠ f) :
    (fs.removeFile f).isFile q = fs.isFile q := by
  cases hb : fs.isFile q with
  | true =>
    obtain ⟨c, hc⟩ := isFile_iff.mp hb
    exact isFile_iff.mpr ⟨c, List.mem_filter.mpr ⟨hc, by simpa using hne⟩⟩
  | false =>
    cases hb2 : (fs.removeFile f).isFile q with
    | false => rfl
    | true =>
      obtain ⟨c, hc⟩ := isFile_iff.mp hb2
      have hmem : (q, c) ∈ fs.files := List.mem_of_mem_filter hc
      rw [isFile_iff.mpr ⟨c, hmem⟩] at hb
      cases hb

/-- `remove_files` exactly: the surviving files are those whose path is
not in the list or whose deletion failed; the directories are untouched;
and the messages are, in order, one removal notice per deleted file and
one error-severity report per failed deletion. -/
theorem remove_files_spec {failDel : Path → Bool} {toRemove : List Path} :
    ∀ {fs : FS}, toRemove.Nodup → (∀ f ∈ toRemove, fs.isFile f = true) →
    (remove_files failDel fs toRemove).1.files =
      fs.files.filter (fun e => !(toRemove.contains e.1 && !failDel e.1)) ∧
    (remove_files failDel fs toRemove).1.dirs = fs.dirs ∧
    (remove_files failDel fs toRemove).2 =
      toRemove.map
        (fun f => if failDel f then Msg.removeError f else Msg.fileRemoved f) := by
  induction toRemove with
  | nil =>
    intro fs _ _
    refine ⟨?_, rfl, rfl⟩
    show fs.files = fs.files.filter _
    rw [eq_comm, List.filter_eq_self]
    intro e _
    rfl
  | cons f rest ih =>
    intro fs hnd hex
    obtain ⟨hf1, hndrest⟩ := List.nodup_cons.mp hnd
    have hff : fs.isFile f = true := hex f (List.mem_cons_self f rest)
    unfold remove_files
    by_cases hfd : failDel f = true
    · rw [if_pos (by rw [hfd]; rfl)]
      obtain ⟨ihf, ihd, ihm⟩ := ih hndrest
        (fun f' hf' => hex f' (List.mem_cons_of_mem f hf'))
      refine ⟨?_, ihd, ?_⟩
      · rw [ihf]
        apply List.filter_congr
        intro e _
        by_cases he : e.1 = f
        · simp [he, hfd, List.contains_eq_any_beq]
        · simp [List.contains_eq_any_beq, he, Ne.symm he]
      · show Msg.removeError f :: (remove_files failDel fs rest).2 = _
        rw [List.map_cons, if_pos hfd, ihm]
    · have hfd' : failDel f = false := by
        cases hb : failDel f
        · rfl
        · exact absurd hb hfd
      rw [if_neg (by rw [hfd', hff]; simp)]
      obtain ⟨ihf, ihd, ihm⟩ := ih hndrest (fun f' hf' => by
        have hne : f' ≠ f := fun he => hf1 (by rw [← he]; exact hf')
        rw [removeFile_isFile_other hne]
        exact hex f' (List.mem_cons_of_mem f hf'))
      refine ⟨?_, ihd, ?_⟩
      · rw [ihf]
        show ((fs.removeFile f).files.filter _) = _
        unfold FS.removeFile
        rw [List.filter_filter]
        apply List.filter_congr
        intro e _
        by_cases he : e.1 = f
        · simp [he, hfd', List.contains_eq_any_beq]
        · simp [List.contains_eq_any_beq, he, Ne.symm he]
      · show Msg.fileRemoved f :: (remove_files failDel (fs.removeFile f) rest).2 = _
        rw [List.map_cons, if_neg (by simp [hfd']), ihm]

theorem remove_files_WF {failDel : Path → Bool} {toRemove : List Path} :
    ∀ {fs : FS}, fs.WF → (remove_files failDel fs toRemove).1.WF := by
  induction toRemove with
  | nil =>
    intro fs hwf
    exact hwf
  | cons f rest ih =>
    intro fs hwf
    unfold remove_files
    split
    · exact ih hwf
    · exact ih (WF_filter_files hwf _)

/-! ### The visit order of `remove_empty_folders` -/

theorem dedupKeepFirst_sublist :
    ∀ l : List Path, List.Sublist (dedupKeepFirst l) l
  | [] => List.Sublist.refl _
  | x :: xs =>
    List.Sublist.cons₂ x
      ((List.filter_sublist _).trans (dedupKeepFirst_sublist xs))

theorem dedupKeepFirst_mem :
    ∀ {l : List Path} {p : Path}, p ∈ l → p ∈ dedupKeepFirst l
  | [], _, h => by cases h
  | x :: xs, p, h => by
    show p ∈ x :: (dedupKeepFirst xs).filter (fun y => decide (y ≠ x))
    rcases List.mem_cons.mp h with rfl | h'
    · exact List.mem_cons_self _ _
    · by_cases hpx : p = x
      · rw [hpx]
        exact List.mem_cons_self _ _
      · exact List.mem_cons_of_mem x
          (List.mem_filter.mpr ⟨dedupKeepFirst_mem h', by simpa using hpx⟩)

theorem dedupKeepFirst_nodup : ∀ l : List Path, (dedupKeepFirst l).Nodup
  | [] => List.nodup_nil
  | x :: xs => by
    show (x :: (dedupKeepFirst xs).filter (fun y => decide (y ≠ x))).Nodup
    rw [List.nodup_cons]
    refine ⟨?_, (dedupKeepFirst_nodup xs).filter _⟩
    intro hmem
    have := List.of_mem_filter hmem
    simp at this

theorem visitOrder_mem {fs : FS} {p : Path} :
    p ∈ visitOrder fs ↔ p ∈ fs.dirs := by
  unfold visitOrder srcWalk
  constructor
  · intro h
    have h1 := (dedupKeepFirst_sublist _).mem h
    rw [List.mem_insertionSort] at h1
    simpa using h1
  · intro h
    exact dedupKeepFirst_mem (by
      rw [List.mem_insertionSort]
      simpa using h)

theorem visitOrder_nodup (fs : FS) : (visitOrder fs).Nodup :=
  dedupKeepFirst_nodup _

theorem visitOrder_sorted (fs : FS) :
    (visitOrder fs).Sorted (fun a b => pathLe b a = true) :=
  (List.sorted_insertionSort _ _).sublist (dedupKeepFirst_sublist _)

/-! ### The removal loop of `remove_empty_folders` -/

/-- The directory `d` owns an entry that the remaining removal loop can
never delete: an immediate child file, or an immediate child directory
that is not among the remaining visits `v`. -/
def Keeper (fs : FS) (v : List Path) (d : Path) : Prop :=
  (∃ e ∈ fs.files, e.1.dropLast = d ∧ e.1 ≠ []) ∨
  (∃ q ∈ fs.dirs, q.dropLast = d ∧ q ≠ [] ∧ q ∉ v)

/-! ### Directories with no immediate child have no descendants -/

/-- In a well-formed tree, a directory strictly above another directory
has an immediate child directory. -/
theorem child_dir_of_strict_ancestor {fs : FS} (hwf : fs.WF) :
    ∀ n q, q ∈ fs.dirs → q.length ≤ n → ∀ d ∈ fs.dirs, d <+: q → d ≠ q →
      ∃ q1 ∈ fs.dirs, q1.dropLast = d ∧ q1 ≠ [] := by
  intro n
  induction n with
  | zero =>
    intro q hq hlen d _ _ hne
    interval_cases hq' : q.length
    exact absurd (List.length_eq_zero.mp hq') (hwf.dirsNonRoot q hq)
  | succ n ih =>
    intro q hq hlen d hd hpre hne
    by_cases hpar : q.dropLast = d
    · exact ⟨q, hq, hpar, hwf.dirsNonRoot q hq⟩
    · have hqne : q ≠ [] := hwf.dirsNonRoot q hq
      have hdne : d ≠ [] := hwf.dirsNonRoot d hd
      have hlt : d.length < q.length := by
        rcases Nat.lt_or_ge d.length q.length with h | h
        · exact h
        · exact absurd (hpre.eq_of_length (Nat.le_antisymm hpre.length_le h))
            hne
      have hpre2 : d <+: q.dropLast := by
        refine List.prefix_of_prefix_length_le hpre (List.dropLast_prefix q) ?_
        rw [List.length_dropLast]
        omega
      have hq2 : q.dropLast ∈ fs.dirs := by
        rcases hwf.dirsParent q hq with h | h
        · rw [h] at hpre2
          exact absurd (List.prefix_nil.mp hpre2) hdne
        · exact h
      have hne2 : d ≠ q.dropLast := fun he => hpar he.symm
      refine ih q.dropLast hq2 ?_ d hd hpre2 hne2
      rw [List.length_dropLast]
      omega

/-- In a well-formed tree, a directory strictly above a file has an
immediate child (a file or a directory). -/
theorem child_of_file_strict_ancestor {fs : FS} (hwf : fs.WF) {e : Path × Nat}
    (he : e ∈ fs.files) {d : Path} (hd : d ∈ fs.dirs) (hpre : d <+: e.1)
    (hne : d ≠ e.1) :
    (∃ e1 ∈ fs.files, e1.1.dropLast = d ∧ e1.1 ≠ []) ∨
    (∃ q1 ∈ fs.dirs, q1.dropLast = d ∧ q1 ≠ []) := by
  have hkey : e.1 ∈ fs.files.map Prod.fst := List.mem_map_of_mem Prod.fst he
  have hene : e.1 ≠ [] := hwf.filesNonRoot e.1 hkey
  by_cases hpar : e.1.dropLast = d
  · exact Or.inl ⟨e, he, hpar, hene⟩
  · have hdne : d ≠ [] := hwf.dirsNonRoot d hd
    have hlt : d.length < e.1.length := by
      rcases Nat.lt_or_ge d.length e.1.length with h | h
      · exact h
      · exact absurd (hpre.eq_of_length (Nat.le_antisymm hpre.length_le h)) hne
    have hpre2 : d <+: e.1.dropLast := by
      refine List.prefix_of_prefix_length_le hpre (List.dropLast_prefix e.1) ?_
      rw [List.length_dropLast]
      omega
    have hq2 : e.1.dropLast ∈ fs.dirs := by
      rcases hwf.filesParent e.1 hkey with h | h
      · rw [h] at hpre2
        exact absurd (List.prefix_nil.mp hpre2) hdne
      · exact h
    have hne2 : d ≠ e.1.dropLast := fun h' => hpar h'.symm
    exact Or.inr (child_dir_of_strict_ancestor hwf e.1.dropLast.length
      e.1.dropLast hq2 (Nat.le_refl _) d hd hpre2 hne2)

theorem listDirEmpty_iff {fs : FS} {d : Path} :
    fs.listDirEmpty d = true ↔
      (∀ e ∈ fs.files, ¬(e.1.dropLast = d ∧ e.1 ≠ [])) ∧
      (∀ q ∈ fs.dirs, ¬(q.dropLast = d ∧ q ≠ [])) := by
  unfold FS.listDirEmpty
  simp [List.any_eq_true, not_or]

/-- Under well-formedness, a directory that `os.listdir` finds empty has
no strict descendant at all, so `rmtree` removes it alone. -/
theorem rmtree_of_empty {fs : FS} (hwf : fs.WF) {d : Path} (hd : d ∈ fs.dirs)
    (he : fs.listDirEmpty d = true) :
    (fs.rmtree d).files = fs.files ∧
    (fs.rmtree d).dirs = fs.dirs.filter (fun q => decide (q ≠ d)) ∧
    (fs.rmtree d).WF := by
  obtain ⟨hef, hed⟩ := listDirEmpty_iff.mp he
  have hnofile : ∀ e ∈ fs.files, ¬ d <+: e.1 := by
    intro e hee hpre
    by_cases hne : d = e.1
    · exact hwf.disjoint e.1 (List.mem_map_of_mem Prod.fst hee) (hne ▸ hd)
    · rcases child_of_file_strict_ancestor hwf hee hd hpre hne with
        ⟨e1, he1, hp1⟩ | ⟨q1, hq1, hp1⟩
      · exact hef e1 he1 hp1
      · exact hed q1 hq1 hp1
  have hnodir : ∀ q ∈ fs.dirs, d <+: q → q = d := by
    intro q hq hpre
    by_cases hne : d = q
    · exact hne.symm
    · obtain ⟨q1, hq1, hp1⟩ := child_dir_of_strict_ancestor hwf q.length q hq
        (Nat.le_refl _) d hd hpre hne
      exact absurd hp1 (hed q1 hq1)
  have hfiles : (fs.rmtree d).files = fs.files := by
    show fs.files.filter _ = fs.files
    rw [List.filter_eq_self]
    intro e hee
    have := hnofile e hee
    simp only [Bool.not_eq_true']
    cases hb : d.isPrefixOf e.1
    · rfl
    · exact absurd (List.isPrefixOf_iff_prefix.mp hb) this
  have hdirs : (fs.rmtree d).dirs = fs.dirs.filter (fun q => decide (q ≠ d)) := by
    show fs.dirs.filter _ = _
    apply List.filter_congr
    intro q hq
    by_cases hqd : q = d
    · subst hqd
      have hb : q.isPrefixOf q = true :=
        List.isPrefixOf_iff_prefix.mpr (List.prefix_refl q)
      rw [hb]
      simp
    · have hb : d.isPrefixOf q = false := by
        cases hb2 : d.isPrefixOf q
        · rfl
        · exact absurd (hnodir q hq (List.isPrefixOf_iff_prefix.mp hb2)) hqd
      rw [hb]
      simp [hqd]
  refine ⟨hfiles, hdirs, ?_⟩
  have hdirssub : List.Sublist (fs.rmtree d).dirs fs.dirs := by
    rw [hdirs]
    exact List.filter_sublist _
  refine ⟨by rw [hfiles]; exact hwf.nodupFiles, hwf.nodupDirs.sublist hdirssub,
    ?_, ?_, ?_, ?_, ?_⟩
  · intro q hq
    rw [hfiles] at hq
    intro hmem
    exact hwf.disjoint q hq (hdirssub.mem hmem)
  · intro q hq
    rw [hfiles] at hq
    exact hwf.filesNonRoot q hq
  · intro q hq
    exact hwf.dirsNonRoot q (hdirssub.mem hq)
  · intro q hq
    rw [hfiles] at hq
    rcases hwf.filesParent q hq with h | h
    · exact Or.inl h
    · refine Or.inr ?_
      rw [hdirs, List.mem_filter]
      refine ⟨h, ?_⟩
      simp only [decide_eq_true_eq]
      intro hqd
      obtain ⟨e, hee, hkey⟩ := List.mem_map.mp hq
      refine hef e hee ⟨by rw [hkey, hqd], by
        rw [hkey]
        exact hwf.filesNonRoot q hq⟩
  · intro q hq
    rw [hdirs, List.mem_filter] at hq
    obtain ⟨hq, hqd⟩ := hq
    rcases hwf.dirsParent q hq with h | h
    · exact Or.inl h
    · refine Or.inr ?_
      rw [hdirs, List.mem_filter]
      refine ⟨h, ?_⟩
      simp only [decide_eq_true_eq]
      intro hpd
      exact hed q hq ⟨hpd, hwf.dirsNonRoot q hq⟩


/-! ### The invariant of the removal loop -/

theorem keeper_not_empty {fs : FS} {d : Path} (h : Keeper fs [] d) :
    fs.listDirEmpty d = false := by
  cases hb : fs.listDirEmpty d with
  | false => rfl
  | true =>
    obtain ⟨hef, hed⟩ := listDirEmpty_iff.mp hb
    rcases h with ⟨e, he, h1, h2⟩ | ⟨q, hq, h1, h2, _⟩
    · exact absurd ⟨h1, h2⟩ (hef e he)
    · exact absurd ⟨h1, h2⟩ (hed q hq)

theorem not_empty_child {fs : FS} {d : Path} (h : fs.listDirEmpty d = false) :
    (∃ e ∈ fs.files, e.1.dropLast = d ∧ e.1 ≠ []) ∨
    (∃ q ∈ fs.dirs, q.dropLast = d ∧ q ≠ []) := by
  unfold FS.listDirEmpty at h
  rcases Bool.and_eq_false_iff.mp h with h1 | h1
  · rw [Bool.not_eq_false'] at h1
    obtain ⟨e, he, hp⟩ := List.any_eq_true.mp h1
    simp only [decide_eq_true_eq] at hp
    exact Or.inl ⟨e, he, hp⟩
  · rw [Bool.not_eq_false'] at h1
    obtain ⟨q, hq, hp⟩ := List.any_eq_true.mp h1
    simp only [decide_eq_true_eq] at hp
    exact Or.inr ⟨q, hq, hp⟩

theorem listDirEmpty_mono {fs1 fs : FS} {d : Path}
    (hf : ∀ e ∈ fs1.files, e ∈ fs.files) (hd : ∀ q ∈ fs1.dirs, q ∈ fs.dirs)
    (h : fs.listDirEmpty d = true) : fs1.listDirEmpty d = true := by
  obtain ⟨hef, hed⟩ := listDirEmpty_iff.mp h
  exact listDirEmpty_iff.mpr
    ⟨fun e he => hef e (hf e he), fun q hq => hed q (hd q hq)⟩

/-- A path whose parent is the directory `d` is a proper extension of
`d`, hence different from it and ordered strictly after it. -/
theorem child_ne_parent {q d : Path} (hp : q.dropLast = d) (hq : q ≠ []) :
    q ≠ d := by
  intro he
  subst he
  have := List.length_dropLast q
  rw [hp] at this
  have hlen : 0 < q.length := List.length_pos.mpr hq
  omega

/-- The master run of the removal loop: under the invariant it never
raises, deletes no file, only deletes directories, keeps the tree
well-formed, only appends messages, reports each removed directory,
removes every visited directory that started out empty, and leaves no
empty directory behind. -/
theorem rmLoop_ok :
    ∀ {v : List Path} {fs : FS} {ms : List Msg},
    fs.WF →
    (∀ d ∈ v, d ∈ fs.dirs) →
    v.Nodup →
    v.Sorted (fun a b => pathLe b a = true) →
    (∀ d ∈ fs.dirs, d ∉ v → Keeper fs v d) →
    ∃ out, rmLoop fs ms v = .ok out ∧
      out.1.files = fs.files ∧
      (∀ d ∈ out.1.dirs, d ∈ fs.dirs) ∧
      out.1.WF ∧
      (∃ more, out.2 = ms ++ more) ∧
      (∀ d ∈ fs.dirs, d ∉ out.1.dirs → Msg.emptyDirRemoved d ∈ out.2) ∧
      (∀ d ∈ v, fs.listDirEmpty d = true → d ∉ out.1.dirs) ∧
      (∀ d ∈ out.1.dirs, out.1.listDirEmpty d = false) := by
  intro v
  induction v with
  | nil =>
    intro fs ms hwf _ _ _ hstable
    refine ⟨(fs, ms), rfl, rfl, fun d hd => hd, hwf, ⟨[], by simp⟩,
      fun d hd hnd => absurd hd hnd, by simp, ?_⟩
    intro d hd
    exact keeper_not_empty (hstable d hd (List.not_mem_nil d))
  | cons d0 tl ih =>
    intro fs ms hwf hvsub hvnd hvsorted hstable
    have hd0 : d0 ∈ fs.dirs := hvsub d0 (List.mem_cons_self d0 tl)
    have hisdir : fs.isDir d0 = true := isDir_iff.mpr (Or.inr hd0)
    obtain ⟨hd0tl, hndtl⟩ := List.nodup_cons.mp hvnd
    have htlle : ∀ b ∈ tl, pathLe b d0 = true :=
      List.rel_of_sorted_cons hvsorted
    have hsortedtl := hvsorted.of_cons
    unfold rmLoop
    rw [if_pos hisdir]
    cases hemp : fs.listDirEmpty d0 with
    | true =>
      rw [if_pos rfl]
      obtain ⟨hfiles1, hdirs1, hwf1⟩ := rmtree_of_empty hwf hd0 hemp
      have hmem1 : ∀ {q : Path}, q ∈ (fs.rmtree d0).dirs ↔ q ∈ fs.dirs ∧ q ≠ d0 := by
        intro q
        rw [hdirs1, List.mem_filter]
        simp
      obtain ⟨out, hrun, hf, hdsub, hwfo, hpre, hnotice, hempty, hfinal⟩ :=
        @ih (fs.rmtree d0) (ms ++ [Msg.emptyDirRemoved d0]) hwf1
          (fun d hd => hmem1.mpr ⟨hvsub d (List.mem_cons_of_mem d0 hd),
            fun he => hd0tl (he ▸ hd)⟩)
          hndtl hsortedtl
          (fun d hd hdntl => by
            obtain ⟨hdfs, hdne⟩ := hmem1.mp hd
            have hdnv : d ∉ d0 :: tl := by
              intro hmem
              rcases List.mem_cons.mp hmem with he | he
              · exact hdne he
              · exact hdntl he
            rcases hstable d hdfs hdnv with ⟨e, he, h1, h2⟩ | ⟨q, hq, h1, h2, h3⟩
            · exact Or.inl ⟨e, by rw [hfiles1]; exact he, h1, h2⟩
            · refine Or.inr ⟨q, hmem1.mpr ⟨hq, fun he =>
                h3 (he ▸ List.mem_cons_self d0 tl)⟩, h1, h2,
                fun hm => h3 (List.mem_cons_of_mem d0 hm)⟩)
      refine ⟨out, hrun, by rw [hf, hfiles1], fun d hd => (hmem1.mp (hdsub d hd)).1,
        hwfo, ?_, ?_, ?_, hfinal⟩
      · obtain ⟨more, hmore⟩ := hpre
        exact ⟨Msg.emptyDirRemoved d0 :: more, by rw [hmore]; simp⟩
      · intro d hd hdno
        by_cases hdd0 : d = d0
        · subst hdd0
          obtain ⟨more, hmore⟩ := hpre
          rw [hmore]
          simp
        · exact hnotice d (hmem1.mpr ⟨hd, hdd0⟩) hdno
      · intro d hd hde
        rcases List.mem_cons.mp hd with rfl | hdtl
        · intro hmem
          exact (hmem1.mp (hdsub d hmem)).2 rfl
        · refine hempty d hdtl ?_
          refine listDirEmpty_mono ?_ ?_ hde
          · intro e he
            rw [hfiles1] at he
            exact he
          · intro q hq
            exact (hmem1.mp hq).1
    | false =>
      rw [if_neg (by simp)]
      obtain ⟨out, hrun, hf, hdsub, hwfo, hpre, hnotice, hempty, hfinal⟩ :=
        @ih fs ms hwf
          (fun d hd => hvsub d (List.mem_cons_of_mem d0 hd))
          hndtl hsortedtl
          (fun d hd hdntl => by
            by_cases hdd0 : d = d0
            · subst hdd0
              rcases not_empty_child hemp with ⟨e, he, h1, h2⟩ | ⟨q, hq, h1, h2⟩
              · exact Or.inl ⟨e, he, h1, h2⟩
              · refine Or.inr ⟨q, hq, h1, h2, ?_⟩
                intro hqtl
                have hq1 : pathLe q d = true := htlle q hqtl
                have hq2 : pathLe d q = true := by
                  refine pathLe_of_ancestor ?_
                  rw [← h1]
                  exact List.dropLast_prefix q
                exact child_ne_parent h1 h2 (pathLe_antisymm hq1 hq2)
            · have hdnv : d ∉ d0 :: tl := by
                intro hmem
                rcases List.mem_cons.mp hmem with he | he
                · exact hdd0 he
                · exact hdntl he
              rcases hstable d hd hdnv with ⟨e, he, h1, h2⟩ | ⟨q, hq, h1, h2, h3⟩
              · exact Or.inl ⟨e, he, h1, h2⟩
              · exact Or.inr ⟨q, hq, h1, h2,
                  fun hm => h3 (List.mem_cons_of_mem d0 hm)⟩)
      refine ⟨out, hrun, hf, hdsub, hwfo, hpre, hnotice, ?_, hfinal⟩
      intro d hd hde
      rcases List.mem_cons.mp hd with rfl | hdtl
      · rw [hde] at hemp
        cases hemp
      · exact hempty d hdtl hde


/-- `remove_empty_folders` on a well-formed tree: it never raises, keeps
every file, removes only directories, reports every removed directory,
removes every directory that was empty, and leaves no empty directory. -/
theorem remove_empty_folders_ok {fs : FS} (hwf : fs.WF) :
    ∃ out, remove_empty_folders fs = .ok out ∧
      out.1.files = fs.files ∧
      (∀ d ∈ out.1.dirs, d ∈ fs.dirs) ∧
      out.1.WF ∧
      (∀ d ∈ fs.dirs, d ∉ out.1.dirs → Msg.emptyDirRemoved d ∈ out.2) ∧
      (∀ d ∈ fs.dirs, fs.listDirEmpty d = true → d ∉ out.1.dirs) ∧
      (∀ d ∈ out.1.dirs, out.1.listDirEmpty d = false) := by
  obtain ⟨out, hrun, hf, hdsub, hwfo, _, hnotice, hempty, hfinal⟩ :=
    @rmLoop_ok (visitOrder fs) fs [] hwf
      (fun d hd => visitOrder_mem.mp hd)
      (visitOrder_nodup fs)
      (visitOrder_sorted fs)
      (fun d hd hnd => absurd (visitOrder_mem.mpr hd) hnd)
  exact ⟨out, hrun, hf, hdsub, hwfo, hnotice,
    fun d hd he => hempty d (visitOrder_mem.mpr hd) he, hfinal⟩

theorem contains_iff_mem {l : List Path} {a : Path} :
    l.contains a = true ↔ a ∈ l :=
  List.elem_iff

/-- The full characterization of one successful driver cycle on a
non-empty source: the final destination exists and holds exactly the
source's files with the source's contents, and no empty directory
survives in it. -/
theorem runCycle_files {pe : Bool} {src dst : FS} {out : TopSt}
    (hsrc : src.WF) (hdst : dst.WF) (hne : src.files ≠ [])
    (h : runCycle pe (some src) (some dst) = .ok out) :
    ∃ fsF : FS, out.dest = some fsF ∧
      (∀ p, fsF.getFile p = src.getFile p) ∧
      fsF.WF ∧
      (∀ d ∈ fsF.dirs, fsF.listDirEmpty d = false) := by
  unfold runCycle at h
  unfold sync at h
  dsimp only at h
  cases hs : syncFS noFail src dst with
  | error e =>
    rw [hs] at h
    unfold liftSync at h
    cases h
  | ok st =>
    rw [hs] at h
    unfold liftSync at h
    dsimp only at h
    obtain ⟨hsync, hget, hother, _, _, _, hback, hwfp, _⟩ := syncFS_ok hsrc hs
    have hwf1 : st.fs.WF := hwfp hdst
    have hsyncne : st.synced ≠ [] := by
      obtain ⟨e, he⟩ := List.exists_mem_of_ne_nil src.files hne
      have : e.1 ∈ readDirFS src :=
        (readDirFS_mem hsrc).mpr (List.mem_map_of_mem Prod.fst he)
      rw [hsync]
      exact List.ne_nil_of_mem this
    rw [if_neg (by simpa [List.isEmpty_iff] using hsyncne)] at h
    set toRemove :=
      (read_dir (some st.fs)).filter (fun f => !st.synced.contains f) with htr
    have hndtr : toRemove.Nodup := (readDirFS_nodup hwf1).filter _
    have hextr : ∀ f ∈ toRemove, st.fs.isFile f = true := by
      intro f hf
      exact mem_keys_isFile ((readDirFS_mem hwf1).mp (List.mem_of_mem_filter hf))
    obtain ⟨hprf, hprd, _⟩ := @remove_files_spec noFail toRemove st.fs hndtr hextr
    have hwf2 : (remove_files noFail st.fs toRemove).1.WF := remove_files_WF hwf1
    obtain ⟨rout, hrr, hrf, _, hwf3, _, _, hfinal⟩ := remove_empty_folders_ok hwf2
    rw [hrr] at h
    injection h with h
    subst h
    refine ⟨rout.1, rfl, ?_, hwf3, hfinal⟩
    have hroutfiles : rout.1.files =
        st.fs.files.filter (fun e => !toRemove.contains e.1) := by
      rw [hrf, hprf]
      apply List.filter_congr
      intro e _
      simp [noFail]
    intro p
    by_cases hp : p ∈ src.files.map Prod.fst
    · obtain ⟨e, he, hkey⟩ := List.mem_map.mp hp
      obtain ⟨p', c⟩ := e
      subst hkey
      have hsrcget : src.getFile p' = some c := mem_getFile_of_nodup hsrc.nodupFiles he
      have hstget : st.fs.getFile p' = some c := hget (p', c) he
      have hmem1 : (p', c) ∈ st.fs.files := getFile_eq_some_mem hstget
      have hpsync : p' ∈ st.synced := by
        rw [hsync]
        exact (readDirFS_mem hsrc).mpr hp
      have hnotrm : toRemove.contains p' = false := by
        cases hb : toRemove.contains p'
        · rfl
        · have := List.of_mem_filter (contains_iff_mem.mp hb)
          rw [Bool.not_eq_true'] at this
          rw [contains_iff_mem.mpr hpsync] at this
          cases this
      have hmem2 : (p', c) ∈ rout.1.files := by
        rw [hroutfiles]
        exact List.mem_filter.mpr ⟨hmem1, by rw [hnotrm]; rfl⟩
      rw [hsrcget]
      exact mem_getFile_of_nodup hwf3.nodupFiles hmem2
    · have hsrcnone : src.getFile p = none := by
        rw [getFile_eq_none_iff]
        cases hb : src.isFile p
        · rfl
        · exact absurd (isFile_mem_keys hb) hp
      rw [hsrcnone, getFile_eq_none_iff]
      cases hb : rout.1.isFile p
      · rfl
      · obtain ⟨c, hc⟩ := isFile_iff.mp hb
        rw [hroutfiles] at hc
        obtain ⟨hmem1, hpred⟩ := List.mem_filter.mp hc
        have hpkey : p ∈ st.fs.files.map Prod.fst := List.mem_map_of_mem Prod.fst hmem1
        have hprd2 : p ∈ read_dir (some st.fs) := (readDirFS_mem hwf1).mpr hpkey
        have hpnsync : p ∉ st.synced := by
          rw [hsync]
          intro hmem
          exact hp ((readDirFS_mem hsrc).mp hmem)
        have hintr : p ∈ toRemove := by
          rw [htr]
          refine List.mem_filter.mpr ⟨hprd2, ?_⟩
          cases hb2 : st.synced.contains p
          · rfl
          · exact absurd (contains_iff_mem.mp hb2) hpnsync
        rw [contains_iff_mem.mpr hintr] at hpred
        cases hpred

/-! ### A raising pass stops early -/

theorem prefix_append_left {l pre x : List Path} (h : pre <+: x) :
    l ++ pre <+: l ++ x := by
  obtain ⟨t, rfl⟩ := h
  exact ⟨t, by simp⟩

theorem runJobs_error {fail : Path → Bool} {st e : St} {jobs : List (Path × Nat)}
    (h : runJobs fail st jobs = .error e) :
    ∃ pre, pre <+: jobs.map Prod.fst ∧ e.synced = st.synced ++ pre := by
  induction jobs generalizing st with
  | nil =>
    unfold runJobs at h
    cases h
  | cons j rest ih =>
    unfold runJobs at h
    split at h
    case h_1 st1 hcs =>
      obtain ⟨hsync1, _, _, _, _, _, _, _⟩ := copyStep_ok hcs
      obtain ⟨pre, hpre, hs⟩ := ih h
      refine ⟨j.1 :: pre, ?_, ?_⟩
      · obtain ⟨t, ht⟩ := hpre
        exact ⟨t, by rw [List.map_cons, List.cons_append, ht]⟩
      · rw [hs, hsync1]
        simp
    case h_2 e' hcs =>
      injection h with h1
      subst h1
      obtain ⟨hsync, _, _, _⟩ := copyStep_error hcs
      exact ⟨[], List.nil_prefix, by simp [hsync]⟩

theorem dirStep_error_partial {fail : Path → Bool} {src : FS} {st e : St} {d : Path}
    (h : dirStep fail src st d = .error e) :
    ∃ pre, pre <+: (childFiles src d).map Prod.fst ∧
      e.synced = st.synced ++ pre := by
  unfold dirStep at h
  split at h
  case isTrue => exact runJobs_error h
  case isFalse =>
    split at h
    case h_1 fs2 hmk =>
      obtain ⟨pre, hpre, hs⟩ := runJobs_error h
      exact ⟨pre, hpre, hs⟩
    case h_2 =>
      injection h with h1
      subst h1
      exact ⟨[], List.nil_prefix, by simp⟩

theorem runJobs_synced {fail : Path → Bool} {st st' : St}
    {jobs : List (Path × Nat)} (h : runJobs fail st jobs = .ok st') :
    st'.synced = st.synced ++ jobs.map Prod.fst := by
  induction jobs generalizing st with
  | nil =>
    unfold runJobs at h
    injection h with h1
    subst h1
    simp
  | cons j rest ih =>
    unfold runJobs at h
    split at h
    case h_2 => cases h
    case h_1 st1 hcs =>
      obtain ⟨hsync1, _, _, _, _, _, _, _⟩ := copyStep_ok hcs
      rw [ih h, hsync1]
      simp

theorem dirStep_synced {fail : Path → Bool} {src : FS} {st st' : St} {d : Path}
    (h : dirStep fail src st d = .ok st') :
    st'.synced = st.synced ++ (childFiles src d).map Prod.fst := by
  unfold dirStep at h
  split at h
  case isTrue => exact runJobs_synced h
  case isFalse =>
    split at h
    case h_1 fs2 hmk =>
      have hs := runJobs_synced h
      exact hs
    case h_2 => cases h

theorem runDirs_error_partial {fail : Path → Bool} {src : FS} {st e : St}
    {ds : List Path} (h : runDirs fail src st ds = .error e) :
    ∃ pre, pre <+: ds.flatMap (fun d => (childFiles src d).map Prod.fst) ∧
      e.synced = st.synced ++ pre := by
  induction ds generalizing st with
  | nil =>
    unfold runDirs at h
    cases h
  | cons d rest ih =>
    unfold runDirs at h
    split at h
    case h_1 st1 hds =>
      have hsync1 := dirStep_synced hds
      obtain ⟨pre, hpre, hs⟩ := ih h
      refine ⟨(childFiles src d).map Prod.fst ++ pre, ?_, ?_⟩
      · rw [List.flatMap_cons]
        exact prefix_append_left hpre
      · rw [hs, hsync1]
        simp
    case h_2 e' hds =>
      injection h with h1
      subst h1
      obtain ⟨pre, hpre, hs⟩ := dirStep_error_partial hds
      refine ⟨pre, ?_, hs⟩
      rw [List.flatMap_cons]
      obtain ⟨t, ht⟩ := hpre
      exact ⟨t ++ rest.flatMap (fun d => (childFiles src d).map Prod.fst),
        by rw [← List.append_assoc, ht]⟩

theorem syncFS_error {fail : Path → Bool} {src fs0 : FS} {e : St}
    (h : syncFS fail src fs0 = .error e) :
    ∃ pre, pre <+: readDirFS src ∧ e.synced = pre := by
  unfold syncFS at h
  obtain ⟨pre, hpre, hs⟩ := runDirs_error_partial h
  exact ⟨pre, hpre, by rw [hs]; simp⟩

/-! ### A pass over an already-synchronized tree does nothing -/

theorem copyStep_stable {fail : Path → Bool} {st : St} {j : Path × Nat}
    (hin : st.fs.getFile j.1 = some j.2) :
    copyStep fail st j = .ok ⟨st.fs, st.msgs, st.synced ++ [j.1]⟩ := by
  have hex : st.fs.pathExists j.1 = true := by
    refine pathExists_iff.mpr (Or.inl ?_)
    exact isFile_iff_getFile.mpr ⟨j.2, hin⟩
  unfold copyStep updCheck
  rw [if_pos hex, hin]
  have hupd : is_updated j.2 j.2 = false := by
    simp [is_updated, get_checksum]
  dsimp only
  rw [hupd]
  rfl

theorem runJobs_stable {fail : Path → Bool} {st : St} {jobs : List (Path × Nat)}
    (hin : ∀ j ∈ jobs, st.fs.getFile j.1 = some j.2) :
    runJobs fail st jobs = .ok ⟨st.fs, st.msgs, st.synced ++ jobs.map Prod.fst⟩ := by
  induction jobs generalizing st with
  | nil =>
    show Except.ok st = _
    obtain ⟨fs, msgs, synced⟩ := st
    simp
  | cons j rest ih =>
    unfold runJobs
    rw [copyStep_stable (hin j (List.mem_cons_self j rest))]
    dsimp only
    have hih := @ih ⟨st.fs, st.msgs, st.synced ++ [j.1]⟩
      (fun j' hj' => hin j' (List.mem_cons_of_mem j hj'))
    rw [hih]
    simp

theorem runDirs_stable {fail : Path → Bool} {src : FS} {st : St} {ds : List Path}
    (hex : ∀ d ∈ ds, st.fs.pathExists d = true)
    (hin : ∀ d ∈ ds, ∀ j ∈ childFiles src d, st.fs.getFile j.1 = some j.2) :
    runDirs fail src st ds =
      .ok ⟨st.fs, st.msgs,
        st.synced ++ ds.flatMap (fun d => (childFiles src d).map Prod.fst)⟩ := by
  induction ds generalizing st with
  | nil =>
    show Except.ok st = _
    obtain ⟨fs, msgs, synced⟩ := st
    simp
  | cons d rest ih =>
    unfold runDirs dirStep
    rw [if_pos (hex d (List.mem_cons_self d rest))]
    rw [runJobs_stable (hin d (List.mem_cons_self d rest))]
    dsimp only
    have hih := @ih
      ⟨st.fs, st.msgs, st.synced ++ (childFiles src d).map Prod.fst⟩
      (fun d' hd' => hex d' (List.mem_cons_of_mem d hd'))
      (fun d' hd' => hin d' (List.mem_cons_of_mem d hd'))
    rw [hih]
    simp

/-- Running `sync` again right after a successful pass changes nothing:
no message is printed (in particular no copy happens) and the
destination tree is bit-for-bit the same; the same list is returned. -/
theorem syncFS_idem {src fs0 : FS} {st' : St}
    (hwf : src.WF) (h : syncFS noFail src fs0 = .ok st') :
    syncFS noFail src st'.fs = .ok ⟨st'.fs, [], readDirFS src⟩ := by
  obtain ⟨_, hget, _, _, _, _, _, _, hex⟩ := syncFS_ok hwf h
  unfold syncFS
  have hst := @runDirs_stable noFail src ⟨st'.fs, [], []⟩ (srcWalk src) hex
    (fun d _ j hj => hget j (List.mem_of_mem_filter hj))
  rw [hst]
  simp [readDirFS]

/-! ### At most one copy per file per pass -/

theorem countP_copy_single (p : Path) (m : Msg) :
    (List.countP (Msg.isCopyOf p) [m]) ≤ 1 := by
  simp [List.countP_cons]
  split <;> omega

theorem countP_created_other {p q : Path} (h : q ≠ p) :
    List.countP (Msg.isCopyOf p) [Msg.fileCreated q] = 0 := by
  simp [List.countP_cons, Msg.isCopyOf, h]

theorem countP_updated_other {p q : Path} (h : q ≠ p) :
    List.countP (Msg.isCopyOf p) [Msg.fileUpdated q] = 0 := by
  simp [List.countP_cons, Msg.isCopyOf, h]

theorem runJobs_count {fail : Path → Bool} {st st' : St}
    {jobs : List (Path × Nat)} (hnd : (jobs.map Prod.fst).Nodup)
    (h : runJobs fail st jobs = .ok st') (p : Path) :
    st'.msgs.countP (Msg.isCopyOf p) ≤
      st.msgs.countP (Msg.isCopyOf p) +
        (if p ∈ jobs.map Prod.fst then 1 else 0) := by
  induction jobs generalizing st with
  | nil =>
    unfold runJobs at h
    injection h with h1
    subst h1
    simp
  | cons j rest ih =>
    unfold runJobs at h
    simp only [List.map_cons, List.nodup_cons] at hnd
    split at h
    case h_2 => cases h
    case h_1 st1 hcs =>
      have hrest := ih hnd.2 h
      have hstep : st1.msgs.countP (Msg.isCopyOf p) ≤
          st.msgs.countP (Msg.isCopyOf p) + (if p = j.1 then 1 else 0) := by
        obtain ⟨_, _, _, _, _, _, _, hmsgs⟩ := copyStep_ok hcs
        rcases hmsgs with hm | hm | hm <;> rw [hm] <;>
          [skip; rw [List.countP_append]; rw [List.countP_append]] <;>
          by_cases hpj : p = j.1
        · omega
        · omega
        · subst hpj
          rw [if_pos rfl]
          have hc1 := countP_copy_single j.1 (Msg.fileCreated j.1)
          omega
        · rw [countP_created_other (fun he => hpj he.symm)]
          omega
        · subst hpj
          rw [if_pos rfl]
          have hc1 := countP_copy_single j.1 (Msg.fileUpdated j.1)
          omega
        · rw [countP_updated_other (fun he => hpj he.symm)]
          omega
      by_cases hpj : p = j.1
      · have hnr : p ∉ rest.map Prod.fst := by
          rw [hpj]
          exact hnd.1
        rw [if_neg hnr] at hrest
        rw [if_pos hpj] at hstep
        rw [List.map_cons, if_pos (List.mem_cons.mpr (Or.inl hpj))]
        omega
      · rw [if_neg hpj] at hstep
        rw [List.map_cons]
        have hif : (if p ∈ rest.map Prod.fst then 1 else 0) ≤
            (if p ∈ j.1 :: rest.map Prod.fst then 1 else 0) := by
          by_cases hm : p ∈ rest.map Prod.fst
          · rw [if_pos hm, if_pos (List.mem_cons_of_mem _ hm)]
          · rw [if_neg hm]
            omega
        omega

theorem dirStep_count {fail : Path → Bool} {src : FS} {st st' : St} {d : Path}
    (hnd : ((childFiles src d).map Prod.fst).Nodup)
    (h : dirStep fail src st d = .ok st') (p : Path) :
    st'.msgs.countP (Msg.isCopyOf p) ≤
      st.msgs.countP (Msg.isCopyOf p) +
        (if p ∈ (childFiles src d).map Prod.fst then 1 else 0) := by
  unfold dirStep at h
  split at h
  case isTrue => exact runJobs_count hnd h p
  case isFalse =>
    split at h
    case h_2 => cases h
    case h_1 fs2 hmk =>
      have := @runJobs_count fail ⟨fs2, st.msgs ++ [Msg.destCreated d], st.synced⟩
        st' (childFiles src d) hnd h p
      have hdm : List.countP (Msg.isCopyOf p) [Msg.destCreated d] = 0 := by
        simp [List.countP_cons, Msg.isCopyOf]
      rw [List.countP_append, hdm] at this
      omega

theorem runDirs_count {fail : Path → Bool} {src : FS} {st st' : St}
    {ds : List Path} (hnd : ds.Nodup)
    (hsub : ∀ d ∈ ds, ((childFiles src d).map Prod.fst).Nodup)
    (h : runDirs fail src st ds = .ok st') (p : Path) :
    st'.msgs.countP (Msg.isCopyOf p) ≤
      st.msgs.countP (Msg.isCopyOf p) +
        (if ∃ d ∈ ds, p ∈ (childFiles src d).map Prod.fst then 1 else 0) := by
  induction ds generalizing st with
  | nil =>
    unfold runDirs at h
    injection h with h1
    subst h1
    simp
  | cons d rest ih =>
    unfold runDirs at h
    obtain ⟨hd1, hndrest⟩ := List.nodup_cons.mp hnd
    split at h
    case h_2 => cases h
    case h_1 st1 hds =>
      have hstep := dirStep_count (hsub d (List.mem_cons_self d rest)) hds p
      have hrest := ih hndrest
        (fun d' hd' => hsub d' (List.mem_cons_of_mem d hd')) h
      by_cases hphead : p ∈ (childFiles src d).map Prod.fst
      · have hnrest : ¬ ∃ d' ∈ rest, p ∈ (childFiles src d').map Prod.fst := by
          rintro ⟨d', hd', hp'⟩
          have h1 := (childFiles_dropLast hphead).1
          have h2 := (childFiles_dropLast hp').1
          have hde : d' = d := by rw [← h2, h1]
          exact hd1 (hde ▸ hd')
        rw [if_neg hnrest] at hrest
        rw [if_pos hphead] at hstep
        rw [if_pos ⟨d, List.mem_cons_self d rest, hphead⟩]
        omega
      · rw [if_neg hphead] at hstep
        have hle : (if ∃ d' ∈ rest, p ∈ (childFiles src d').map Prod.fst
            then 1 else 0) ≤
            (if ∃ d' ∈ d :: rest, p ∈ (childFiles src d').map Prod.fst
              then 1 else 0) := by
          by_cases hm : ∃ d' ∈ rest, p ∈ (childFiles src d').map Prod.fst
          · obtain ⟨d', hd', hp'⟩ := hm
            rw [if_pos ⟨d', hd', hp'⟩,
              if_pos ⟨d', List.mem_cons_of_mem d hd', hp'⟩]
          · rw [if_neg hm]
            omega
        omega

/-- In one pass, each destination path receives at most one `copy2`. -/
theorem syncFS_copy_once {fail : Path → Bool} {src fs0 : FS} {st' : St}
    (hwf : src.WF) (h : syncFS fail src fs0 = .ok st') (p : Path) :
    st'.msgs.countP (Msg.isCopyOf p) ≤ 1 := by
  unfold syncFS at h
  have := runDirs_count (srcWalk_nodup hwf)
    (fun d _ => childFiles_nodup hwf d) h p
  simp only [List.countP_nil] at this
  split at this <;> omega

/-! ## The claims

Example trees used by the concrete instances below. -/

/-- The spec's scenario source: `a.txt`("hello"), `sub/b.txt`("world"). -/
def exSrc : FS := ⟨[(["a.txt"], 1), (["sub", "b.txt"], 2)], [["sub"]]⟩

/-- A destination with a stray file and a stray empty directory. -/
def exDst : FS := ⟨[(["old.txt"], 9)], [["leftover"]]⟩

/-- A one-file source. -/
def exSrcOne : FS := ⟨[(["a.txt"], 1)], []⟩

/-- A two-file source, used to fail the first copy. -/
def exSrcTwo : FS := ⟨[(["a.txt"], 1), (["b.txt"], 2)], []⟩

/-- A two-level chain of empty directories. -/
def exChain : FS := ⟨[], [["a"], ["a", "b"]]⟩

/-- Directories whose reverse-lexicographic order is not a
descending-depth order. -/
def exDepth : FS := ⟨[], [["a"], ["a", "b"], ["z"]]⟩

theorem exSrc_WF : exSrc.WF := by
  refine ⟨?_, ?_, ?_, ?_, ?_, ?_, ?_⟩ <;> decide

theorem exDst_WF : exDst.WF := by
  refine ⟨?_, ?_, ?_, ?_, ?_, ?_, ?_⟩ <;> decide

theorem exSrcOne_WF : exSrcOne.WF := by
  refine ⟨?_, ?_, ?_, ?_, ?_, ?_, ?_⟩ <;> decide

theorem exChain_WF : exChain.WF := by
  refine ⟨?_, ?_, ?_, ?_, ?_, ?_, ?_⟩ <;> decide

theorem exDepth_WF : exDepth.WF := by
  refine ⟨?_, ?_, ?_, ?_, ?_, ?_, ?_⟩ <;> decide

theorem empty_WF : FS.empty.WF := by
  refine ⟨?_, ?_, ?_, ?_, ?_, ?_, ?_⟩ <;> decide

/-- C1, counterexample: for the pair (empty source tree, destination
holding `old.txt`), one full cycle completes, but - because the sync
result is empty, so the prune steps are skipped - the destination's file
set (`old.txt`) does not equal the source's (empty): the claim's
universally quantified convergence fails as stated. -/
theorem C1_counterexample :
    runCycle true (some FS.empty) (some exDst) = .ok ⟨some exDst, [], []⟩ ∧
    exDst.getFile ["old.txt"] = some 9 ∧
    FS.empty.getFile ["old.txt"] = none :=
  ⟨rfl, rfl, rfl⟩

/-- C1, amended: for every pair of well-formed source and destination
trees such that the source holds at least one file, if one full
sync+prune cycle completes without raising, the destination's file set
equals the source's file set exactly by relative path, and every
destination file's content digest equals its source counterpart's
(`getFile` agrees on every path). -/
theorem C1_theorem {pe : Bool} {src dst : FS} {out : TopSt}
    (hsrc : src.WF) (hdst : dst.WF) (hne : src.files ≠ [])
    (h : runCycle pe (some src) (some dst) = .ok out) :
    ∃ fsF, out.dest = some fsF ∧ ∀ p, fsF.getFile p = src.getFile p := by
  obtain ⟨fsF, h1, h2, _, _⟩ := runCycle_files hsrc hdst hne h
  exact ⟨fsF, h1, h2⟩

theorem C1_witness :
    ∃ fsF, (TopSt.mk (some exSrcOne) [Msg.fileCreated ["a.txt"]]
        [["a.txt"]]).dest = some fsF ∧
      ∀ p, fsF.getFile p = exSrcOne.getFile p :=
  @C1_theorem true exSrcOne FS.empty
    ⟨some exSrcOne, [Msg.fileCreated ["a.txt"]], [["a.txt"]]⟩
    exSrcOne_WF empty_WF (by decide) rfl

/-- C2, counterexample: with source files `a.txt` and `b.txt`, an empty
destination, and `copy2` failing on `a.txt`, `sync` propagates the
exception instead of continuing: the pass ends as an error whose
destination tree is still empty, although `b.txt` is a source file of
the same pass - so the other files are not synchronized. -/
theorem C2_counterexample :
    sync (fun p => decide (p = ["a.txt"])) true (some exSrcTwo)
        (some FS.empty) =
      .error ⟨some FS.empty, [Msg.fileCreated ["a.txt"]], []⟩ ∧
    (["b.txt"], 2) ∈ exSrcTwo.files ∧
    FS.empty.getFile ["b.txt"] = none :=
  ⟨rfl, by decide, rfl⟩

/-- C2, amended: a copy failure during a sync pass is not caught: the
exception propagates out of `sync` and aborts the remaining traversal,
so the files recorded as synchronized at the moment of the raise form a
prefix of the walk of the source's files - the files after the failure
point are not processed in that pass. -/
theorem C2_theorem {fail : Path → Bool} {pe : Bool} {src : FS}
    {dst : Option FS} {e : TopSt}
    (h : sync fail pe (some src) dst = .error e) :
    e.synced <+: readDirFS src := by
  unfold sync at h
  cases dst with
  | some fs0 =>
    dsimp only at h
    cases hs : syncFS fail src fs0 with
    | ok st =>
      rw [hs] at h
      unfold liftSync at h
      cases h
    | error e' =>
      rw [hs] at h
      unfold liftSync at h
      injection h with h1
      subst h1
      obtain ⟨pre, hpre, hsy⟩ := syncFS_error hs
      show e'.synced <+: readDirFS src
      rw [hsy]
      exact hpre
  | none =>
    cases pe with
    | false =>
      dsimp only at h
      injection h with h1
      subst h1
      exact List.nil_prefix
    | true =>
      dsimp only at h
      cases hs : syncFS fail src FS.empty with
      | ok st =>
        rw [hs] at h
        unfold liftSync at h
        cases h
      | error e' =>
        rw [hs] at h
        unfold liftSync at h
        injection h with h1
        subst h1
        obtain ⟨pre, hpre, hsy⟩ := syncFS_error hs
        show e'.synced <+: readDirFS src
        rw [hsy]
        exact hpre

theorem C2_witness :
    (TopSt.mk (some FS.empty) [Msg.fileCreated ["a.txt"]] []).synced <+:
      readDirFS exSrcTwo :=
  @C2_theorem (fun p => decide (p = ["a.txt"])) true exSrcTwo (some FS.empty)
    ⟨some FS.empty, [Msg.fileCreated ["a.txt"]], []⟩ rfl

/-- C3, counterexample: a `sync` call whose source root does not exist
returns normally with an empty result (here the destination still holds
its old file), rather than propagating a pass-level failure: `os.walk`
of a missing root silently yields nothing. -/
theorem C3_counterexample :
    sync noFail true none (some exDst) = .ok ⟨some exDst, [], []⟩ :=
  rfl

/-- C3, amended: for every call of `sync` where the source root does not
exist (or is unreadable), no error propagates: `os.walk` yields nothing,
so `sync` completes normally with an empty result, leaving an existing
destination untouched (and still creating a missing destination root
first when its parent exists). -/
theorem C3_theorem (fail : Path → Bool) (pe : Bool) (dst : FS) :
    sync fail pe none (some dst) = .ok ⟨some dst, [], []⟩ ∧
    sync fail true none none = .ok ⟨some FS.empty, [Msg.destCreated []], []⟩ :=
  ⟨rfl, rfl⟩

/-- C4, counterexample: for the destination directories `a`, `a/b`, `z`,
the code's visit order - sorting the walked directory paths by their
segment lists in reverse (Python list comparison) - is `z`, `a/b`, `a`,
which is not sorted by descending depth (segment count 1 comes before
segment count 2), refuting the claimed ordering. -/
theorem C4_counterexample :
    visitOrder exDepth = [["z"], ["a", "b"], ["a"]] ∧
    ¬ (visitOrder exDepth).Sorted (fun a b : Path => b.length ≤ a.length) :=
  ⟨rfl, by decide⟩

/-- C4, amended: the empty-directory removal step visits the walked
destination directories sorted by their segment lists in descending
lexicographic order (Python's list comparison, not by segment count);
this still places every directory before all of its ancestors, and every
directory that is empty at the time it is visited is removed (in
particular every initially empty directory is). -/
theorem C4_theorem {fs : FS} (hwf : fs.WF) :
    (∀ d, d ∈ visitOrder fs ↔ d ∈ fs.dirs) ∧
    (visitOrder fs).Sorted (fun a b => pathLe b a = true) ∧
    (∀ l1 p l2, visitOrder fs = l1 ++ p :: l2 → ∀ q ∈ l2, p <+: q → p = q) ∧
    (∃ out, remove_empty_folders fs = .ok out ∧
      ∀ d ∈ fs.dirs, fs.listDirEmpty d = true → d ∉ out.1.dirs) := by
  refine ⟨fun d => visitOrder_mem, visitOrder_sorted fs, ?_, ?_⟩
  · intro l1 p l2 hsplit q hq hpre
    have hsorted := visitOrder_sorted fs
    rw [hsplit] at hsorted
    have hsub : List.Sublist (p :: l2) (l1 ++ p :: l2) :=
      List.sublist_append_right _ _
    have hp2 : (p :: l2).Pairwise (fun a b => pathLe b a = true) :=
      List.Pairwise.sublist hsub hsorted
    exact pathLe_antisymm (pathLe_of_ancestor hpre)
      (List.rel_of_pairwise_cons hp2 hq)
  · obtain ⟨out, hrun, _, _, _, _, hempty, _⟩ := remove_empty_folders_ok hwf
    exact ⟨out, hrun, hempty⟩

theorem C4_witness :
    ["a", "b"] ∈ visitOrder exDepth ↔ ["a", "b"] ∈ exDepth.dirs :=
  (C4_theorem exDepth_WF).1 ["a", "b"]

/-- C5: the sync pass never deletes: whatever a pass does (including
raising), every destination file and directory present before is still
present after, contents change only at paths mirrored from the source,
and on success the destination holds every source file's content - so a
crash between sync and prune leaves the destination a superset of the
source's mirror. -/
theorem C5_theorem (fail : Path → Bool) (src fs0 : FS) :
    (∀ q ∈ fs0.files.map Prod.fst,
      q ∈ (outState (syncFS fail src fs0)).fs.files.map Prod.fst) ∧
    (∀ d ∈ fs0.dirs, d ∈ (outState (syncFS fail src fs0)).fs.dirs) ∧
    (∀ q, q ∉ src.files.map Prod.fst →
      (outState (syncFS fail src fs0)).fs.getFile q = fs0.getFile q) ∧
    (src.WF → ∀ st', syncFS fail src fs0 = .ok st' →
      ∀ j ∈ src.files, st'.fs.getFile j.1 = some j.2) := by
  obtain ⟨hext, hother⟩ := @syncFS_out fail src fs0
  exact ⟨hext.2, hext.1, hother, fun hwf st' h => (syncFS_ok hwf h).2.1⟩

theorem C5_witness :
    (["old.txt"] : Path) ∈
      (outState (syncFS noFail exSrc exDst)).fs.files.map Prod.fst :=
  (C5_theorem noFail exSrc exDst).1 ["old.txt"] (by decide)

/-- The destination state reached by one sync pass of `exSrc` into an
empty destination root. -/
def exRun : St :=
  ⟨⟨[(["a.txt"], 1), (["sub", "b.txt"], 2)], [["sub"]]⟩,
   [Msg.fileCreated ["a.txt"], Msg.destCreated ["sub"],
    Msg.fileCreated ["sub", "b.txt"]],
   [["a.txt"], ["sub", "b.txt"]]⟩

/-- C6: sync is idempotent with respect to copies: after a successful
pass, running the pass again on the unchanged source succeeds, prints no
message at all (in particular performs zero `copy2` calls, each of which
is always preceded by its message), leaves the destination tree
identical, and returns the same list; moreover within any single
successful pass every destination path receives at most one copy (the
copy notices for each fixed path number at most 1). -/
theorem C6_theorem {src fs0 : FS} {st' : St} (hwf : src.WF)
    (h : syncFS noFail src fs0 = .ok st') :
    (∃ st2, syncFS noFail src st'.fs = .ok st2 ∧ st2.fs = st'.fs ∧
      st2.msgs = [] ∧ st2.synced = st'.synced) ∧
    (∀ p, st'.msgs.countP (Msg.isCopyOf p) ≤ 1) := by
  refine ⟨⟨⟨st'.fs, [], readDirFS src⟩, syncFS_idem hwf h, rfl, rfl, ?_⟩,
    fun p => syncFS_copy_once hwf h p⟩
  show readDirFS src = st'.synced
  exact ((syncFS_ok hwf h).1).symm

theorem C6_witness :
    (∃ st2, syncFS noFail exSrc exRun.fs = .ok st2 ∧ st2.fs = exRun.fs ∧
      st2.msgs = [] ∧ st2.synced = exRun.synced) ∧
    (∀ p, exRun.msgs.countP (Msg.isCopyOf p) ≤ 1) :=
  @C6_theorem exSrc FS.empty exRun exSrc_WF rfl

/-- C7: after the empty-directory removal step on a well-formed
destination, the step has completed without raising, no empty directory
remains anywhere under the destination root (even multi-level chains of
empty directories are fully removed, and no file is touched), and the
root itself - excluded from the visit list by the `[1:]` slice - is
never a candidate for removal even when it is empty. -/
theorem C7_theorem {fs : FS} (hwf : fs.WF) :
    ∃ out, remove_empty_folders fs = .ok out ∧
      (∀ d ∈ out.1.dirs, out.1.listDirEmpty d = false) ∧
      out.1.files = fs.files ∧
      ([] : Path) ∉ visitOrder fs := by
  obtain ⟨out, hrun, hf, _, _, _, _, hfinal⟩ := remove_empty_folders_ok hwf
  refine ⟨out, hrun, hfinal, hf, ?_⟩
  intro hmem
  exact hwf.dirsNonRoot [] (visitOrder_mem.mp hmem) rfl

theorem C7_witness :
    ∃ out, remove_empty_folders exChain = .ok out ∧
      (∀ d ∈ out.1.dirs, out.1.listDirEmpty d = false) ∧
      out.1.files = exChain.files ∧
      ([] : Path) ∉ visitOrder exChain :=
  C7_theorem exChain_WF

/-- C8: the file-removal step deletes exactly those destination files
whose path is not in the keep set: the survivors are the files whose
path is kept or whose deletion failed; the emitted messages are, in
order, one removal notice per deleted file and one error-severity report
per failed deletion (so one failure never aborts the remaining batch). -/
theorem C8_theorem {fs : FS} (hwf : fs.WF) (keep : List Path)
    (failDel : Path → Bool) :
    (remove_files failDel fs
        ((readDirFS fs).filter (fun f => !keep.contains f))).2 =
      ((readDirFS fs).filter (fun f => !keep.contains f)).map
        (fun f => if failDel f then Msg.removeError f else Msg.fileRemoved f) ∧
    (∀ f : Path, (Msg.removeError f).isError = true ∧
      (Msg.fileRemoved f).isError = false) ∧
    (∀ p c, (p, c) ∈ (remove_files failDel fs
        ((readDirFS fs).filter (fun f => !keep.contains f))).1.files ↔
      ((p, c) ∈ fs.files ∧ (p ∈ keep ∨ failDel p = true))) := by
  have hndtr : ((readDirFS fs).filter (fun f => !keep.contains f)).Nodup :=
    (readDirFS_nodup hwf).filter _
  have hextr : ∀ f ∈ (readDirFS fs).filter (fun f => !keep.contains f),
      fs.isFile f = true := by
    intro f hf
    exact mem_keys_isFile ((readDirFS_mem hwf).mp (List.mem_of_mem_filter hf))
  obtain ⟨hfil, hdirs, hmsgs⟩ := @remove_files_spec failDel
    ((readDirFS fs).filter (fun f => !keep.contains f)) fs hndtr hextr
  refine ⟨hmsgs, fun f => ⟨rfl, rfl⟩, ?_⟩
  intro p c
  rw [hfil, List.mem_filter]
  constructor
  · rintro ⟨hmem, hpred⟩
    refine ⟨hmem, ?_⟩
    rw [Bool.not_eq_true', Bool.and_eq_false_iff] at hpred
    rcases hpred with hpred | hpred
    · left
      have hnotr : p ∉ (readDirFS fs).filter (fun f => !keep.contains f) := by
        intro hm
        rw [contains_iff_mem.mpr hm] at hpred
        cases hpred
      have hrd : p ∈ readDirFS fs :=
        (readDirFS_mem hwf).mpr (List.mem_map_of_mem Prod.fst hmem)
      by_cases hk : p ∈ keep
      · exact hk
      · exfalso
        refine hnotr (List.mem_filter.mpr ⟨hrd, ?_⟩)
        cases hb : keep.contains p
        · rfl
        · exact absurd (contains_iff_mem.mp hb) hk
    · right
      rw [Bool.not_eq_false'] at hpred
      exact hpred
  · rintro ⟨hmem, hor⟩
    refine ⟨hmem, ?_⟩
    rw [Bool.not_eq_true', Bool.and_eq_false_iff]
    rcases hor with hk | hfa
    · left
      cases hb : ((readDirFS fs).filter (fun f => !keep.contains f)).contains p
      · rfl
      · have := List.of_mem_filter (contains_iff_mem.mp hb)
        rw [contains_iff_mem.mpr hk] at this
        cases this
    · right
      rw [Bool.not_eq_false']
      exact hfa

theorem C8_witness :
    (["old.txt"], 9) ∈ (remove_files noFail exDst
        ((readDirFS exDst).filter
          (fun f => !([["a.txt"]] : List Path).contains f))).1.files ↔
      ((["old.txt"], 9) ∈ exDst.files ∧
        (["old.txt"] ∈ ([["a.txt"]] : List Path) ∨ noFail ["old.txt"] = true)) :=
  (C8_theorem exDst_WF [["a.txt"]] noFail).2.2 ["old.txt"] 9

/-- C9: the tree walker `read_dir` returns the empty list when the root
does not exist; on an existing well-formed root it returns exactly the
paths of the regular files reachable by the recursive walk (by
membership), and none of its results is a directory. -/
theorem C9_theorem (fs : FS) (hwf : fs.WF) :
    read_dir none = [] ∧
    (∀ p, p ∈ read_dir (some fs) ↔ p ∈ fs.files.map Prod.fst) ∧
    (∀ p ∈ read_dir (some fs), fs.isDir p = false) := by
  refine ⟨rfl, fun p => readDirFS_mem hwf, ?_⟩
  intro p hp
  have hkey := (readDirFS_mem hwf).mp hp
  cases hb : fs.isDir p
  · rfl
  · rcases isDir_iff.mp hb with hnil | hmem
    · rw [hnil] at hkey
      exact absurd rfl (hwf.filesNonRoot [] hkey)
    · exact absurd hmem (hwf.disjoint p hkey)

theorem C9_witness :
    read_dir none = [] ∧
    (["sub", "b.txt"] ∈ read_dir (some exSrc) ↔
      ["sub", "b.txt"] ∈ exSrc.files.map Prod.fst) :=
  ⟨(C9_theorem exSrc exSrc_WF).1, (C9_theorem exSrc exSrc_WF).2.1 ["sub", "b.txt"]⟩

/-- C10: destination-root creation is a single-level `os.mkdir`: when the
destination root and its parent are both missing, `sync` raises after
printing the creation notice, with nothing copied, no file recorded, and
the destination still nonexistent - it creates no intermediate
directories (whereas with the parent present and no source the root
alone is created). -/
theorem C10_theorem (fail : Path → Bool) (src : Option FS) :
    sync fail false src none = .error ⟨none, [Msg.destCreated []], []⟩ ∧
    sync fail true none none = .ok ⟨some FS.empty, [Msg.destCreated []], []⟩ :=
  ⟨rfl, rfl⟩

end DirSync
